import Mathlib

/-!
Verification of the product enrichment-and-matching pipeline.

The Python sources are shallowly embedded: record fields are modelled by the
`Value` type (strings, ints, floats-as-rationals, NaN, None, and lists of
strings, which is the shape list-valued fields take in the pipeline's
records), records by association lists `Dict`, and each pipeline component
by a computable Lean function translated from its Python definition.
Fallible code paths (a Python `TypeError` on a badly typed field) are
modelled with `Option`; `none` means the Python code would raise.
Python floats are carried exactly as rationals; case mappings follow
Python's on the ASCII range that the catalog data uses.
-/

attribute [local semireducible] Rat.add Rat.mul Rat.inv Rat.sub

namespace Catalog

/-! ## Character and string primitives (Python `str` methods over `List Char`) -/

/-- Whitespace characters recognised by Python's `str.strip` and the regex
class `\s` on ASCII data: space, tab, newline, carriage return, vertical
tab, form feed. -/
def isWsCh (c : Char) : Bool :=
  c = ' ' || c = '\t' || c = '\n' || c = '\r' || c = '\x0b' || c = '\x0c'

/-- ASCII letters (the characters Python's case conversions act on here). -/
def alphaCh (c : Char) : Bool :=
  (65 ≤ c.toNat && c.toNat ≤ 90) || (97 ≤ c.toNat && c.toNat ≤ 122)

/-- Lowercase a character list, as Python `str.lower` on ASCII data. -/
def lowerL (l : List Char) : List Char := l.map Char.toLower

/-- Strip characters satisfying `p` from both ends, as Python `str.strip`
with a character class. -/
def stripEnds (p : Char → Bool) (l : List Char) : List Char :=
  ((l.dropWhile p).reverse.dropWhile p).reverse

/-- Python `str.strip()` on a character list. -/
def trimL (l : List Char) : List Char := stripEnds isWsCh l

/-- Python `str.strip()`. -/
def trimS (s : String) : String := ⟨trimL s.data⟩

/-- Python `str.lower()`. -/
def lowerS (s : String) : String := ⟨lowerL s.data⟩

/-- Test whether `needle` occurs at the start of `hay`. -/
def leadsWith : List Char → List Char → Bool
  | [], _ => true
  | _ :: _, [] => false
  | a :: as, b :: bs => a = b && leadsWith as bs

/-- Python's substring test `needle in hay` over character lists. -/
def containsL (needle : List Char) : List Char → Bool
  | [] => needle.isEmpty
  | c :: t => leadsWith needle (c :: t) || containsL needle t

/-- Python `needle in hay` for strings. -/
def strContains (hay needle : String) : Bool := containsL needle.data hay.data

/-- Replace each maximal run of whitespace by a single space, as
`re.sub(r"\s+", " ", ·)`. -/
def collapseWsL : List Char → List Char
  | [] => []
  | [c] => if isWsCh c then [' '] else [c]
  | c1 :: c2 :: t =>
    if isWsCh c1 && isWsCh c2 then collapseWsL (c2 :: t)
    else (if isWsCh c1 then ' ' else c1) :: collapseWsL (c2 :: t)

/-- Characters replaced by the category separator: `>`, commas and
whitespace, the class `[>,\s]` of the normalizer's first substitution. -/
def isCatSep (c : Char) : Bool := c = '>' || c = ',' || isWsCh c

/-- Replace each maximal run of `[>,\s]` by a single `/`, as
`re.sub(r"[>,\s]+", "/", ·)`. -/
def catSub1 : List Char → List Char
  | [] => []
  | [c] => if isCatSep c then ['/'] else [c]
  | c1 :: c2 :: t =>
    if isCatSep c1 && isCatSep c2 then catSub1 (c2 :: t)
    else (if isCatSep c1 then '/' else c1) :: catSub1 (c2 :: t)

/-- Collapse runs of `/` to a single `/`, as `re.sub(r"/+", "/", ·)`. -/
def slashCollapse : List Char → List Char
  | [] => []
  | [c] => [c]
  | c1 :: c2 :: t =>
    if c1 = '/' && c2 = '/' then slashCollapse (c2 :: t)
    else c1 :: slashCollapse (c2 :: t)

/-- Python `str.title()` on ASCII data: a cased character is uppercased
after a non-letter (or at the start) and lowercased after a letter; the
boolean argument records whether the previous character was a letter. -/
def titleL : List Char → Bool → List Char
  | [], _ => []
  | c :: t, prevAlpha =>
    (if prevAlpha then Char.toLower c else Char.toUpper c) :: titleL t (alphaCh c)

/-- Python `str.title()`. -/
def pyTitle (s : String) : String := ⟨titleL s.data false⟩

/-- Join strings with a separator, as Python `sep.join(parts)`. -/
def joinSep (sep : String) : List String → String
  | [] => ""
  | [x] => x
  | x :: y :: t => x ++ sep ++ joinSep sep (y :: t)

/-- Replace underscores by spaces, as `tag.replace("_", " ")`. -/
def replUnd (s : String) : String :=
  ⟨s.data.map (fun c => if c = '_' then ' ' else c)⟩

/-- Numeric value of a digit run (most significant digit first). -/
def natOfDigitsL (l : List Char) : Nat :=
  l.foldl (fun a c => a * 10 + (c.toNat - 48)) 0

/-- Lexicographic order on character lists by code point, Python's `<` on
strings. -/
def lexLt : List Char → List Char → Bool
  | [], [] => false
  | [], _ :: _ => true
  | _ :: _, [] => false
  | a :: as, b :: bs => a < b || (a = b && lexLt as bs)

/-! ## Python values and records -/

/-- Python values carried by the catalog's records.  List-valued fields in
this pipeline (`intents`, `features`, raw image URL lists) hold strings, so
lists are modelled as lists of strings.  `vnan` is a float NaN; `vnone` is
Python `None`. -/
inductive Value where
  | vstr (s : String)
  | vint (n : ℤ)
  | vfloat (q : ℚ)
  | vnan
  | vnone
  | vstrlist (elems : List String)
deriving DecidableEq

/-- Python truthiness (`bool(v)`) for the modelled values. -/
def pyTruthy : Value → Bool
  | .vstr s => !s.isEmpty
  | .vint n => n ≠ 0
  | .vfloat q => q ≠ 0
  | .vnan => true
  | .vnone => false
  | .vstrlist l => !l.isEmpty

/-- Result of `pd.isna(v)` coerced to a boolean.  On a list, `pd.isna`
returns an element-wise array whose boolean coercion raises, modelled as
`none`. -/
def pdIsNa : Value → Option Bool
  | .vnan => some true
  | .vnone => some true
  | .vstrlist _ => none
  | _ => some false

/-- Decimal rendering of a rational, as Python's `str` of a float whose
value has a terminating decimal expansion (the case for every price this
pipeline manipulates); a non-terminating rational falls back to a
fraction rendering. -/
def floatStr (q : ℚ) : String :=
  let sign : String := if q < 0 then "-" else ""
  let a : ℚ := |q|
  if a.den = 1 then sign ++ toString a.num ++ ".0"
  else
    match (List.range 25).find? (fun k => (a * (10 : ℚ) ^ (k + 1)).den = 1) with
    | some k =>
      let e := k + 1
      let m := (a * (10 : ℚ) ^ e).num.toNat
      let ds := (toString m).data
      let ds := List.replicate (e + 1 - ds.length) '0' ++ ds
      sign ++ ⟨ds.take (ds.length - e)⟩ ++ "." ++ ⟨ds.drop (ds.length - e)⟩
    | none => sign ++ toString a.num ++ "/" ++ toString a.den

/-- Python `repr`, used by `str` on the elements of a list. -/
def pyReprElem (s : String) : String :=
  "'" ++ s ++ "'"

/-- Python `str(v)` for the modelled values. -/
def pyStr : Value → String
  | .vstr s => s
  | .vint n => toString n
  | .vfloat q => floatStr q
  | .vnan => "nan"
  | .vnone => "None"
  | .vstrlist l => "[" ++ joinSep ", " (l.map pyReprElem) ++ "]"

/-- Iterating a Python value: a list yields its elements, a string yields
its characters as one-character strings, and other values raise
`TypeError`. -/
def valIter : Value → Option (List String)
  | .vstrlist l => some l
  | .vstr s => some (s.data.map (fun c => String.singleton c))
  | _ => none

/-- Comparison `v < b` of a value against a number; NaN compares false,
non-numbers raise `TypeError` (`none`). -/
def pyNumLt (v : Value) (b : ℚ) : Option Bool :=
  match v with
  | .vint n => some ((n : ℚ) < b)
  | .vfloat q => some (q < b)
  | .vnan => some false
  | _ => none

/-- Comparison `v <= b` of a value against a number; NaN compares false,
non-numbers raise `TypeError` (`none`). -/
def pyNumLe (v : Value) (b : ℚ) : Option Bool :=
  match v with
  | .vint n => some ((n : ℚ) ≤ b)
  | .vfloat q => some (q ≤ b)
  | .vnan => some false
  | _ => none

/-- Records are association lists from field names to values, with
Python-`dict` lookup, update and delete semantics. -/
abbrev Dict := List (String × Value)

/-- Python `d.get(k)`: the value stored for `k`, if present. -/
def getV : Dict → String → Option Value
  | [], _ => none
  | (k1, v) :: t, k => if k1 = k then some v else getV t k

/-- Python `d.get(k, dflt)`. -/
def getVD (d : Dict) (k : String) (dflt : Value) : Value := (getV d k).getD dflt

/-- Python `d[k] = v`: replace the value at `k` in place, or append. -/
def setV : Dict → String → Value → Dict
  | [], k, v => [(k, v)]
  | (k1, v1) :: t, k, v =>
    if k1 = k then (k1, v) :: t else (k1, v1) :: setV t k v

/-- Python `del d[k]` (for the keys a record holds at most once). -/
def delV (d : Dict) (k : String) : Dict := d.filter (fun kv => kv.1 ≠ k)

/-! ## ProductNormalizer (`pipeline_components/normalizer.py`) -/

/-- Configured `max_title_length` of `NormalizationConfig`. -/
def maxTitleLength : Nat := 150

/-- Configured `max_description_length` of `NormalizationConfig`. -/
def maxDescriptionLength : Nat := 500

/-- Configured `default_price` of `NormalizationConfig`. -/
def defaultPrice : ℚ := 0

/-- Variant spellings mapped to canonical brand `"h&m"` in `BRAND_MAPPINGS`
(the table entries are already lowercase, so the code's `v.lower()` is the
identity on them). -/
def hmVariants : List String := ["h&m", "h & m", "h and m", "hm"]

/-- Variant spellings mapped to canonical brand `"oura"`. -/
def ouraVariants : List String := ["oura", "oura ring", "oura rings"]

/-- Variant spellings mapped to canonical brand `"whoop"`. -/
def whoopVariants : List String := ["whoop", "whoop strap", "whoop band"]

/-- Variants of `in_stock` in `AVAILABILITY_MAPPINGS`, in source order. -/
def inStockVariants : List String := ["in stock", "instock", "available", "in_stock"]

/-- Variants of `out_of_stock` in `AVAILABILITY_MAPPINGS`, in source order. -/
def outOfStockVariants : List String :=
  ["out of stock", "outofstock", "unavailable", "not available", "out_of_stock"]

/-- Python `_normalize_id`: `str(product.get("product_id", product.get("id",
""))).strip()`. -/
def normalizeIdV (p : Dict) : String :=
  trimS (pyStr (getVD p "product_id" (getVD p "id" (.vstr ""))))

/-- Core of `_normalize_brand` on a (truthy) string: look the
lowercased-trimmed brand up in the three variant tables (in source order)
and return the canonical name uppercased, else title-case the trimmed
original. -/
def normalizeBrandS (brand : String) : String :=
  let bl := trimS (lowerS brand)
  if bl ∈ hmVariants then "H&M"
  else if bl ∈ ouraVariants then "OURA"
  else if bl ∈ whoopVariants then "WHOOP"
  else pyTitle (trimS brand)

/-- Python `_normalize_brand` on the field value: a falsy value yields
`""`; `.lower()` on a truthy non-string raises. -/
def normalizeBrandV (v : Value) : Option String :=
  if !pyTruthy v then some ""
  else match v with
    | .vstr s => some (normalizeBrandS s)
    | _ => none

/-- Core of `_normalize_category` on a string: lowercase and trim, replace
runs of `>`/commas/whitespace by `/`, collapse repeated `/`, strip leading
and trailing `/`. -/
def normalizeCategoryS (category : String) : String :=
  ⟨stripEnds (fun c => c = '/') (slashCollapse (catSub1 (trimL (lowerL category.data))))⟩

/-- Python `_normalize_category` on the field value. -/
def normalizeCategoryV (v : Value) : Option String :=
  if !pyTruthy v then some ""
  else match v with
    | .vstr s => some (normalizeCategoryS s)
    | _ => none

/-- Characters of the regex class `[\d.]` used by `_normalize_price`. -/
def isPriceCh (c : Char) : Bool := c.isDigit || c = '.'

/-- First maximal run of `[\d.]+` in a character list, as
`re.search(r"[\d.]+", s)`. -/
def firstPriceRun : List Char → Option (List Char)
  | [] => none
  | c :: t => if isPriceCh c then some (c :: t.takeWhile isPriceCh) else firstPriceRun t

/-- Python `float(s)` on a run of digits and dots: defined when the run has
at most one dot and at least one digit; `float("..")` or `float(".")`
raise `ValueError` (`none`). -/
def ratOfRun (run : List Char) : Option ℚ :=
  if run.count '.' ≤ 1 && run.any Char.isDigit then
    let ip := run.takeWhile (fun c => c ≠ '.')
    let fp := (run.dropWhile (fun c => c ≠ '.')).drop 1
    some ((natOfDigitsL ip : ℚ) + (natOfDigitsL fp : ℚ) / (10 : ℚ) ^ fp.length)
  else none

/-- Parse of the string branch of `_normalize_price`: first `[\d.]+` run,
float conversion, clamped at zero, defaulting on failure. -/
def parsePriceStr (l : List Char) : ℚ :=
  match firstPriceRun l with
  | none => defaultPrice
  | some run =>
    match ratOfRun run with
    | none => defaultPrice
    | some q => max q 0

/-- Python `_normalize_price`: NaN-like, `None` and `""` give the default;
numbers are clamped to `max(· , 0)`; anything else is stringified and
parsed by `parsePriceStr`.  A list value raises at the `pd.isna`
coercion (`none`). -/
def normalizePriceV (v : Value) : Option ℚ :=
  match pdIsNa v with
  | none => none
  | some true => some defaultPrice
  | some false =>
    if v = .vnone ∨ v = .vstr "" then some defaultPrice
    else match v with
      | .vint n => some (max (n : ℚ) 0)
      | .vfloat q => some (max q 0)
      | other => some (parsePriceStr (pyStr other).data)

/-- Lowercase, strip, and remove (only) space characters, as
`availability.lower().strip().replace(" ", "")`. -/
def availabilityKey (s : String) : String :=
  ⟨(trimL (lowerL s.data)).filter (fun c => c ≠ ' ')⟩

/-- Test `any(var.replace(" ", "") in key for var in variants)`. -/
def variantHit (key : String) (variants : List String) : Bool :=
  variants.any (fun v => containsL (v.data.filter (fun c => c ≠ ' ')) key.data)

/-- Core of `_normalize_availability` on a (truthy) string: the two variant
lists are tried in source order (`in_stock` first) by substring
containment; no hit defaults to `out_of_stock`. -/
def normalizeAvailabilityS (s : String) : String :=
  let key := availabilityKey s
  if variantHit key inStockVariants then "in_stock"
  else if variantHit key outOfStockVariants then "out_of_stock"
  else "out_of_stock"

/-- Python `_normalize_availability` on the field value: falsy values map
to `out_of_stock` immediately. -/
def normalizeAvailabilityV (v : Value) : Option String :=
  if !pyTruthy v then some "out_of_stock"
  else match v with
    | .vstr s => some (normalizeAvailabilityS s)
    | _ => none

/-- Characters excluded by the regex class `[^\s/$.?#]`. -/
def urlBadFirst (c : Char) : Bool :=
  isWsCh c || c = '/' || c = '$' || c = '.' || c = '?' || c = '#'

/-- Tail of the URL pattern after the prefix: `[^\s/$.?#].[^\s]*$` — one
character outside the class, one further character (`.` matches anything
but a newline), then no whitespace to the end. -/
def urlTail : List Char → Bool
  | c1 :: c2 :: rest =>
    !urlBadFirst c1 && c2 ≠ '\n' && rest.all (fun c => !isWsCh c)
  | _ => false

/-- Match of `re.compile(r"^(https?://|www\.)[^\s/$.?#].[^\s]*$",
re.IGNORECASE)`: the whole (lowercased) string must be one of the three
prefixes followed by `urlTail`; Python's `$` also accepts a single
trailing newline, which is dropped first. -/
def urlMatch (s : String) : Bool :=
  let l := lowerL s.data
  let l := if l.getLast? = some '\n' then l.dropLast else l
  if leadsWith "http://".data l then urlTail (l.drop 7)
  else if leadsWith "https://".data l then urlTail (l.drop 8)
  else if leadsWith "www.".data l then urlTail (l.drop 4)
  else false

/-- Python `_normalize_image_link`: falsy or NaN-like input gives `""`;
otherwise stringify and strip, take the first pipe-delimited segment
(trimmed) when a pipe occurs, and return it only if nonempty and matching
the URL pattern. -/
def normalizeImageLinkV (v : Value) : Option String :=
  if !pyTruthy v then some ""
  else match pdIsNa v with
    | none => none
    | some true => some ""
    | some false =>
      let s0 := trimS (pyStr v)
      let s1 := if s0.data.contains '|' then trimS ⟨s0.data.takeWhile (fun c => c ≠ '|')⟩ else s0
      some (if !s1.isEmpty && urlMatch s1 then s1 else "")

/-- Python `_normalize_text`: falsy input gives `""`; otherwise stringify,
strip, collapse whitespace runs to single spaces, and truncate to
`maxLen` by replacing the tail with `"..."` (the configured lengths are
at least 3). -/
def normalizeTextV (v : Value) (maxLen : Nat) : String :=
  if !pyTruthy v then ""
  else
    let n := collapseWsL (trimL (pyStr v).data)
    ⟨if n.length > maxLen then n.take (maxLen - 3) ++ "...".data else n⟩

/-- Python `ProductNormalizer.normalize`: copy the record, overwrite the
eight canonical fields (each computed from the original record), then drop
`image_urls`.  The result is `none` when one of the field normalizers
raises. -/
def normalizeDict (p : Dict) : Option Dict := do
  let brand ← normalizeBrandV (getVD p "brand" (.vstr ""))
  let category ← normalizeCategoryV (getVD p "category" (.vstr ""))
  let price ← normalizePriceV (getVD p "price" .vnone)
  let avail ← normalizeAvailabilityV (getVD p "availability" (.vstr ""))
  let img ← normalizeImageLinkV (getVD p "image_urls" (.vstr ""))
  let d := setV p "id" (.vstr (normalizeIdV p))
  let d := setV d "brand" (.vstr brand)
  let d := setV d "category" (.vstr category)
  let d := setV d "price" (.vfloat price)
  let d := setV d "availability" (.vstr avail)
  let d := setV d "image_link" (.vstr img)
  let d := setV d "title" (.vstr (normalizeTextV (getVD p "title" (.vstr "")) maxTitleLength))
  let d := setV d "description" (.vstr (normalizeTextV (getVD p "description" (.vstr "")) maxDescriptionLength))
  some (delV d "image_urls")

/-! ## FeatureExtractor (`pipeline_components/feature_extractor.py`) and
IntentMapper (`pipeline_components/intent_mapper.py`) -/

/-- Combined searchable text `f"{title} {description}".lower()` built by
both extractors from a record. -/
def combinedText (p : Dict) : String :=
  lowerS (pyStr (getVD p "title" (.vstr "")) ++ " " ++ pyStr (getVD p "description" (.vstr "")))

/-- Python `FeatureExtractor.extract`: sequential substring tests against
the fixed vocabulary, appending material tags, style tags, then color
tags in source order. -/
def extractFeatures (p : Dict) : List String :=
  let t := (combinedText p).data
  (if containsL "cotton".data t then ["cotton"] else []) ++
  (if containsL "organic".data t then ["organic"] else []) ++
  (if containsL "denim".data t then ["denim"] else []) ++
  (if containsL "wool".data t then ["wool"] else []) ++
  (if containsL "slim".data t then ["slim_fit"] else []) ++
  (if containsL "stretch".data t then ["stretchy"] else []) ++
  (if containsL "white".data t then ["white_color"] else []) ++
  (if containsL "blue".data t then ["blue_color"] else []) ++
  (if containsL "black".data t then ["black_color"] else [])

/-- The `intent_keywords` table of `IntentMapper`, in source order. -/
def intentKeywordTable : List (String × List String) :=
  [("affordable", ["cheap", "budget", "value", "affordable", "under"]),
   ("summer", ["summer", "light", "breathable", "cotton", "warm weather"]),
   ("eco_friendly", ["organic", "eco", "sustainable", "green"]),
   ("casual", ["casual", "everyday", "basic", "comfortable", "daily"]),
   ("comfort", ["comfortable", "soft", "cozy", "warm", "stretch"])]

/-- Python `_extract_text_intents`: an intent fires when any of its
keywords is a substring of the combined text. -/
def textIntents (t : List Char) : List String :=
  intentKeywordTable.filterMap
    (fun kv => if kv.2.any (fun k => containsL k.data t) then some kv.1 else none)

/-- Python `_extract_price_intents` on a numeric price: `budget_friendly`
fires when `price > 0 and price < 30.0` (the `budget_threshold`). -/
def priceIntentsQ (q : ℚ) : List String :=
  if 0 < q ∧ q < 30 then ["budget_friendly"] else []

/-- Price intents on the field value: NaN compares false on both bounds
(no intent); comparing a non-number raises (`none`). -/
def priceIntentsV : Value → Option (List String)
  | .vint n => some (priceIntentsQ (n : ℚ))
  | .vfloat q => some (priceIntentsQ q)
  | .vnan => some []
  | _ => none

/-- Python `_extract_category_intents`: substring `"dress"` of the
lowercased category gives `dress_shopping`, else substring `"hoodie"`
gives `cozy_wear`; `.lower()` on a non-string raises (`none`). -/
def categoryIntentsV : Value → Option (List String)
  | .vstr s =>
    let cl := (lowerS s).data
    some (if containsL "dress".data cl then ["dress_shopping"]
          else if containsL "hoodie".data cl then ["cozy_wear"]
          else [])
  | _ => none

/-- Insert a string into a strictly sorted list, keeping it sorted and
duplicate-free. -/
def insSorted (s : String) : List String → List String
  | [] => [s]
  | x :: t =>
    if lexLt s.data x.data then s :: x :: t
    else if s = x then x :: t
    else x :: insSorted s t

/-- Python `sorted(list(set(l)))`: the sorted list of the distinct
elements of `l` (sorted by code points, Python's `<` on strings). -/
def sortDedupStr (l : List String) : List String := l.foldr insSorted []

/-- Python `IntentMapper.extract_intents`: union of text, price and
category intents, sorted for determinism. -/
def extractIntents (p : Dict) : Option (List String) := do
  let ti := textIntents (combinedText p).data
  let pli ← priceIntentsV (getVD p "price" (.vint 0))
  let cli ← categoryIntentsV (getVD p "category" (.vstr ""))
  some (sortDedupStr (ti ++ pli ++ cli))

/-! ## KnowledgeGraphBuilder (`knowledge_graph.py`) -/

/-- A product node of the knowledge graph, with the five summary fields
copied by `_create_product_node`. -/
structure GraphNode where
  title : Value
  category : Value
  intents : Value
  features : Value
  price : Value
deriving DecidableEq

/-- An edge of the knowledge graph. -/
structure GraphRel where
  rtype : String
  source : Value
  target : Value
deriving DecidableEq

/-- The knowledge graph: product nodes keyed by id, and an edge list. -/
structure Graph where
  products : List (Value × GraphNode)
  relationships : List GraphRel
deriving DecidableEq

/-- Python `_create_product_node`. -/
def mkNode (p : Dict) : GraphNode :=
  { title := getVD p "ai_optimized_title" (getVD p "title" (.vstr ""))
    category := getVD p "category" (.vstr "")
    intents := getVD p "intents" (.vstrlist [])
    features := getVD p "features" (.vstrlist [])
    price := getVD p "price" (.vfloat 0) }

/-- Lookup in the product-node map. -/
def getNode : List (Value × GraphNode) → Value → Option GraphNode
  | [], _ => none
  | (k1, n) :: t, k => if k1 = k then some n else getNode t k

/-- Assignment `products[pid] = node` with Python dict semantics. -/
def setNode : List (Value × GraphNode) → Value → GraphNode → List (Value × GraphNode)
  | [], k, n => [(k, n)]
  | (k1, n1) :: t, k, n =>
    if k1 = k then (k1, n) :: t else (k1, n1) :: setNode t k n

/-- Python `_create_relationships`: one `serves_intent` edge per intent,
then a `belongs_to` edge when the category is truthy; a record with a
falsy id yields no edges.  Iterating a non-iterable `intents` value
raises (`none`). -/
def createRels (p : Dict) : Option (List GraphRel) :=
  let pid := getVD p "id" (.vstr "")
  if !pyTruthy pid then some []
  else do
    let ints ← valIter (getVD p "intents" (.vstrlist []))
    let irels := ints.map (fun i => { rtype := "serves_intent", source := pid, target := .vstr i : GraphRel })
    let cat := getVD p "category" (.vstr "")
    some (irels ++ (if pyTruthy cat then [{ rtype := "belongs_to", source := pid, target := cat : GraphRel }] else []))

/-- One iteration of the `build_graph` loop: skip falsy ids, otherwise
insert the node and append the record's relationships. -/
def addRecord (g : Graph) (p : Dict) : Option Graph :=
  let pid := getVD p "id" (.vstr "")
  if !pyTruthy pid then some g
  else do
    let rels ← createRels p
    some { products := setNode g.products pid (mkNode p),
           relationships := g.relationships ++ rels }

/-- Fold of `addRecord` over the record list. -/
def buildGraphAux (g : Graph) : List Dict → Option Graph
  | [] => some g
  | p :: t => do buildGraphAux (← addRecord g p) t

/-- Python `KnowledgeGraphBuilder.build_graph`. -/
def buildGraph (records : List Dict) : Option Graph :=
  buildGraphAux { products := [], relationships := [] } records

/-! ## QueryMatcher (`pipeline_components/query_matcher.py`)

The sentence-transformer encoder is an opaque external capability; the
cosine similarity of the two encodings is abstracted as a parameter
`simE : String → String → ℚ` (query text, product text). -/

/-- A ranked match, the dictionary built by `match_query` per product. -/
structure MatchResult where
  product_id : Value
  description : Value
  score : ℚ
  reason : String
deriving DecidableEq

/-- String content of a value, raising (`none`) on non-strings — the
behaviour of `" ".join` on a list element. -/
def elemStr : Value → Option String
  | .vstr s => some s
  | _ => none

/-- Python `_create_product_text`: the three components (AI content,
space-joined intents, space-joined features), with falsy components
dropped by `filter(None, ·)` before joining. -/
def productText (p : Dict) : Option String := do
  let ints ← valIter (getVD p "intents" (.vstrlist []))
  let feats ← valIter (getVD p "features" (.vstrlist []))
  let comps : List Value :=
    [getVD p "ai_optimized_content" (.vstr ""),
     .vstr (joinSep " " ints), .vstr (joinSep " " feats)]
  let strs ← (comps.filter pyTruthy).mapM elemStr
  some (joinSep " " strs)

/-- Python `_calculate_similarity`: `0.0` for empty-after-strip product
text, otherwise the encoder cosine similarity. -/
def similarityOf (simE : String → String → ℚ) (q : String) (p : Dict) : Option ℚ := do
  let t ← productText p
  if (trimS t).isEmpty then some 0 else some (simE q t)

/-- First run of `\d+` in a character list, as `re.findall(r"\d+", s)[0]`. -/
def firstDigitRun : List Char → Option (List Char)
  | [] => none
  | c :: t => if c.isDigit then some (c :: t.takeWhile Char.isDigit) else firstDigitRun t

/-- Python `_get_price_boost`: `0.2` when the query has an `under`/`below`
keyword, digits are found, and the product price is at most the first
digit run; a `TypeError` from comparing a non-numeric price is not caught
by the `except (ValueError, IndexError)` clause (`none`). -/
def priceBoost (ql : String) (p : Dict) : Option ℚ :=
  if !(containsL "under".data ql.data || containsL "below".data ql.data) then some 0
  else match firstDigitRun ql.data with
    | none => some 0
    | some run =>
      match pyNumLe (getVD p "price" (.vint 0)) (natOfDigitsL run : ℚ) with
      | none => none
      | some true => some (2/10)
      | some false => some 0

/-- Python `_get_intent_boost` / `_get_feature_boost`: `w` per tag whose
underscore-to-space rendering is a substring of the lowercased query. -/
def tagBoost (ql : String) (v : Value) (w : ℚ) : Option ℚ := do
  let tags ← valIter v
  some (tags.foldl (fun b i => if containsL (replUnd i).data ql.data then b + w else b) 0)

/-- Python `_calculate_boost_score`. -/
def boostScore (q : String) (p : Dict) : Option ℚ := do
  let ql := lowerS q
  let pb ← priceBoost ql p
  let ib ← tagBoost ql (getVD p "intents" (.vstrlist [])) (1/10)
  let fb ← tagBoost ql (getVD p "features" (.vstrlist [])) (1/20)
  some (pb + ib + fb)

/-- Python `_generate_match_reason`: append `"Strong semantic match"` for
similarity above `0.5`, a price note when the query contains `"under"`
and the price is below the fixed `50` (short-circuit: the price is only
compared when `"under"` occurs), then `"Has ..."` per matching feature;
an empty list falls back to `"Partial match"`, else the parts are joined
with `". "`. -/
def genReason (q : String) (p : Dict) (sim : ℚ) : Option String := do
  let ql := lowerS q
  let r1 : List String := if (1 : ℚ)/2 < sim then ["Strong semantic match"] else []
  let r2 : List String ←
    if containsL "under".data ql.data then do
      let lt ← pyNumLt (getVD p "price" (.vint 0)) 50
      pure (if lt then ["Price in range ($" ++ pyStr (getVD p "price" (.vint 0)) ++ ")"] else [])
    else pure []
  let feats ← valIter (getVD p "features" (.vstrlist []))
  let reasons := feats.foldl
    (fun acc f => if containsL (replUnd f).data ql.data then acc ++ ["Has " ++ replUnd f] else acc)
    (r1 ++ r2)
  some (if reasons.isEmpty then "Partial match" else joinSep ". " reasons)

/-- Scoring of one product inside the `match_query` loop. -/
def scoreOne (simE : String → String → ℚ) (q : String) (p : Dict) : Option MatchResult := do
  let sim ← similarityOf simE q p
  let b ← boostScore q p
  let r ← genReason q p sim
  some { product_id := getVD p "id" (.vstr ""),
         description := getVD p "ai_optimized_content" (getVD p "title" (.vstr "")),
         score := sim + b,
         reason := r }

/-- Scoring of every product, in input order. -/
def scoreAll (simE : String → String → ℚ) (q : String) : List Dict → Option (List MatchResult)
  | [] => some []
  | p :: t => do
    let r ← scoreOne simE q p
    let rest ← scoreAll simE q t
    some (r :: rest)

/-- Stable insertion for a descending sort by score: the inserted element
comes after every earlier element of equal or higher score, matching
`list.sort(key=..., reverse=True)` stability. -/
def insertScored (r : MatchResult) : List MatchResult → List MatchResult
  | [] => [r]
  | x :: t => if r.score < x.score then x :: insertScored r t else r :: x :: t

/-- Stable descending sort by score. -/
def sortScored : List MatchResult → List MatchResult
  | [] => []
  | r :: t => insertScored r (sortScored t)

/-- Fixed `top_results` of `QueryMatcher`. -/
def topResults : Nat := 3

/-- Python `QueryMatcher.match_query`: empty product list short-circuits
to `[]`; otherwise score all products, sort by descending score (stable)
and take the top 3. -/
def matchQuery (simE : String → String → ℚ) (q : String) (products : List Dict) : Option (List MatchResult) :=
  if products.isEmpty then some []
  else do
    let rs ← scoreAll simE q products
    some ((sortScored rs).take topResults)

/-! ## Specification-side definitions

These re-state parts of the specification text independently of the
source-derived functions above, for refinement-style comparisons. -/

/-- List-valued test used to scope price claims to scalar raw values. -/
def isListV : Value → Bool
  | .vstrlist _ => true
  | _ => false

/-- The nine canonical field names written by `normalize` plus the dropped
`image_urls` key. -/
def canonicalKeys : List String :=
  ["id", "brand", "category", "price", "availability", "image_link", "title",
   "description", "image_urls"]

/-- The spec claim's reading of URL validity: one of the three prefixes
followed by (some) non-whitespace. -/
def claimUrlValid (s : String) : Bool :=
  let tailOk : List Char → Bool := fun l => !l.isEmpty && l.all (fun c => !isWsCh c)
  let m := lowerL s.data
  (leadsWith "http://".data m && tailOk (m.drop 7)) ||
  (leadsWith "https://".data m && tailOk (m.drop 8)) ||
  (leadsWith "www.".data m && tailOk (m.drop 4))

/-- First pipe-delimited segment of the stripped raw value, trimmed — the
candidate the image-link normalizer validates. -/
def firstSegment (s : String) : String :=
  let t := trimS s
  if t.data.contains '|' then trimS ⟨t.data.takeWhile (fun c => c ≠ '|')⟩ else t

/-- Declarative decomposition of the URL pattern
`^(https?://|www\.)[^\s/$.?#].[^\s]*$` (case-insensitive) on a string with
no trailing newline: a prefix, a first character outside whitespace and
`/$.?#`, a second character that is not a newline, and no whitespace
afterwards. -/
def urlOkP (l : List Char) : Prop :=
  ∃ pre rest, lowerL l = pre ++ rest ∧
    (pre = "http://".data ∨ pre = "https://".data ∨ pre = "www.".data) ∧
    ∃ c1 c2 t, rest = c1 :: c2 :: t ∧ isWsCh c1 = false ∧
      c1 ∉ ['/', '$', '.', '?', '#'] ∧ c2 ≠ '\n' ∧ ∀ c ∈ t, isWsCh c = false

/-- Spec-side reading of the match-reason parts: the three blocks in
order — semantic note, price note (query contains `"under"` and price
strictly below the fixed 50), and a `"Has ..."` note per feature whose
rendering occurs in the lowercased query. -/
def reasonParts (q : String) (p : Dict) (sim : ℚ) : Option (List String) := do
  let ql := lowerS q
  let feats ← valIter (getVD p "features" (.vstrlist []))
  let pOk ← if containsL "under".data ql.data
            then pyNumLt (getVD p "price" (.vint 0)) 50 else pure false
  some ((if (1 : ℚ)/2 < sim then ["Strong semantic match"] else []) ++
        (if pOk then ["Price in range ($" ++ pyStr (getVD p "price" (.vint 0)) ++ ")"] else []) ++
        (feats.filter (fun f => containsL (replUnd f).data ql.data)).map
          (fun f => "Has " ++ replUnd f))

/-- Spec-side reading of the whole reason string: the `". "`-join of the
parts, or `"Partial match"` when no part applies. -/
def reasonSpec (q : String) (p : Dict) (sim : ℚ) : Option String :=
  (reasonParts q p sim).map
    (fun parts => if parts.isEmpty then "Partial match" else joinSep ". " parts)

/-! ## Supporting lemmas -/

theorem leadsWith_iff (n h : List Char) : leadsWith n h = true ↔ ∃ t, h = n ++ t := by
  induction n generalizing h with
  | nil => simp [leadsWith]
  | cons a as ih =>
    cases h with
    | nil => simp [leadsWith]
    | cons b bs =>
      simp only [leadsWith, Bool.and_eq_true, decide_eq_true_eq, ih]
      constructor
      · rintro ⟨rfl, t, rfl⟩
        exact ⟨t, rfl⟩
      · rintro ⟨t, ht⟩
        cases ht
        exact ⟨rfl, t, rfl⟩

theorem getV_setV_same (d : Dict) (k : String) (v : Value) :
    getV (setV d k v) k = some v := by
  induction d with
  | nil => simp [setV, getV]
  | cons kv t ih =>
    by_cases h : kv.1 = k
    · simp [setV, h, getV]
    · simp [setV, h, getV, ih]

theorem getV_setV_other (d : Dict) (k k' : String) (v : Value) (h : k' ≠ k) :
    getV (setV d k v) k' = getV d k' := by
  induction d with
  | nil =>
    show getV [(k, v)] k' = none
    simp [getV, Ne.symm h]
  | cons kv t ih =>
    by_cases h1 : kv.1 = k
    · have h2 : kv.1 ≠ k' := by rw [h1]; exact Ne.symm h
      simp [setV, h1, getV, h2, Ne.symm h]
    · simp [setV, h1, getV, ih]

theorem getV_delV_same (d : Dict) (k : String) : getV (delV d k) k = none := by
  induction d with
  | nil => rfl
  | cons kv t ih =>
    simp only [delV, ne_eq, decide_not] at ih ⊢
    by_cases h : kv.1 = k
    · rw [List.filter_cons_of_neg (by simp [h])]
      exact ih
    · rw [List.filter_cons_of_pos (by simp [h])]
      simp [getV, h, ih]

theorem getV_delV_other (d : Dict) (k k' : String) (h : k' ≠ k) :
    getV (delV d k) k' = getV d k' := by
  induction d with
  | nil => rfl
  | cons kv t ih =>
    simp only [delV, ne_eq, decide_not] at ih ⊢
    by_cases h1 : kv.1 = k
    · have h2 : kv.1 ≠ k' := by rw [h1]; exact Ne.symm h
      rw [List.filter_cons_of_neg (by simp [h1])]
      rw [ih]
      simp [getV, h2]
    · rw [List.filter_cons_of_pos (by simp [h1])]
      by_cases h2 : kv.1 = k'
      · simp [getV, h2]
      · simp [getV, h2, ih]

/-- C1: the spec expects every string equal to an `out_of_stock` variant —
in particular `"unavailable"` and `"not available"` — to normalize to
`out_of_stock`, and unmatched or empty strings to default there.  The
code checks the `in_stock` variants first by containment, and
`"available"` is a substring of both `"unavailable"` and
`"notavailable"`, so those two variants actually normalize to
`"in_stock"`; the empty-string and no-match defaults do hold. -/
theorem availability_unavailable_bug :
    normalizeAvailabilityV (.vstr "unavailable") = some "in_stock" ∧
    normalizeAvailabilityV (.vstr "not available") = some "in_stock" ∧
    normalizeAvailabilityV (.vstr "") = some "out_of_stock" ∧
    normalizeAvailabilityV (.vstr "discontinued") = some "out_of_stock" ∧
    normalizeAvailabilityV (.vstr "Out of Stock") = some "out_of_stock" ∧
    normalizeAvailabilityV (.vstr "In Stock") = some "in_stock" := by
  decide

theorem firstPriceRun_mem (l run : List Char) (h : firstPriceRun l = some run) :
    ∀ c ∈ run, c ∈ l := by
  induction l with
  | nil => simp [firstPriceRun] at h
  | cons c t ih =>
    by_cases hc : isPriceCh c
    · simp only [firstPriceRun, if_pos hc, Option.some_inj] at h
      subst h
      intro x hx
      rcases List.mem_cons.mp hx with rfl | hx
      · exact List.mem_cons_self _ _
      · exact List.mem_cons_of_mem _ ((List.takeWhile_sublist _).subset hx)
    · simp only [firstPriceRun, if_neg hc] at h
      intro x hx
      exact List.mem_cons_of_mem _ (ih h x hx)

theorem normalizePriceV_vstr (s : String) (hs : ¬ s = "") :
    normalizePriceV (.vstr s) = some (parsePriceStr s.data) := by
  simp [normalizePriceV, pdIsNa, hs, pyStr]

theorem parsePriceStr_nonneg (l : List Char) : 0 ≤ parsePriceStr l := by
  unfold parsePriceStr
  split
  · simp [defaultPrice]
  · split
    · simp [defaultPrice]
    · exact le_max_right _ _

/-- C5: price normalization is total and safe on every scalar raw value
(missing/`None`, NaN, empty, numeric or arbitrary string): it returns a
non-negative rational without raising, and `None`, NaN, the empty string
and digit-free strings yield exactly the default `0.0`. -/
theorem normalize_price_safe :
    (∀ v : Value, isListV v = false → ∃ q, normalizePriceV v = some q ∧ 0 ≤ q) ∧
    normalizePriceV .vnone = some 0 ∧
    normalizePriceV .vnan = some 0 ∧
    normalizePriceV (.vstr "") = some 0 ∧
    (∀ s : String, s.data.all (fun c => !c.isDigit) = true →
      normalizePriceV (.vstr s) = some 0) := by
  refine ⟨?_, rfl, rfl, by decide, ?_⟩
  · intro v hv
    cases v with
    | vstr s =>
      by_cases hse : s = ""
      · subst hse
        exact ⟨0, by decide, le_refl (0 : ℚ)⟩
      · rw [normalizePriceV_vstr s hse]
        exact ⟨parsePriceStr s.data, rfl, parsePriceStr_nonneg _⟩
    | vint n => exact ⟨max (n : ℚ) 0, by simp [normalizePriceV, pdIsNa], le_max_right _ _⟩
    | vfloat q => exact ⟨max q 0, by simp [normalizePriceV, pdIsNa], le_max_right _ _⟩
    | vnan => exact ⟨0, rfl, le_refl (0 : ℚ)⟩
    | vnone => exact ⟨0, rfl, le_refl (0 : ℚ)⟩
    | vstrlist l => simp [isListV] at hv
  · intro s hs
    by_cases hse : s = ""
    · subst hse; decide
    · rw [normalizePriceV_vstr s hse]
      have hpp : parsePriceStr s.data = 0 := by
        unfold parsePriceStr
        cases h1 : firstPriceRun s.data with
        | none => rfl
        | some run =>
          have hrun : run.any Char.isDigit = false := by
            rw [List.any_eq_false]
            intro c hc
            have hcl : c ∈ s.data := firstPriceRun_mem _ _ h1 c hc
            have := List.all_eq_true.mp hs c hcl
            simpa using this
          have h2 : ratOfRun run = none := by simp [ratOfRun, hrun]
          simp only [h2]
          rfl
      rw [hpp]

theorem normalize_price_safe_witness :
    (∃ q, normalizePriceV (.vstr "price unknown") = some q ∧ 0 ≤ q) ∧
    normalizePriceV (.vstr "price unknown") = some 0 :=
  ⟨normalize_price_safe.1 (.vstr "price unknown") (by decide),
   normalize_price_safe.2.2.2.2 "price unknown" (by decide)⟩

/-- C10: `normalize` copies its input and only overwrites the eight
canonical fields; every key outside them (and outside the dropped
`image_urls`) keeps exactly its raw value, and `image_urls` is absent
from the output. -/
theorem normalize_frame (p x : Dict) (h : normalizeDict p = some x) :
    (∀ k, k ∉ canonicalKeys → getV x k = getV p k) ∧ getV x "image_urls" = none := by
  simp only [normalizeDict, bind, Option.bind_eq_some, Option.some_inj] at h
  obtain ⟨b, hb, c, hc, pr, hpr, av, hav, im, him, hx⟩ := h
  subst hx
  constructor
  · intro k hk
    simp only [canonicalKeys, List.mem_cons, not_or] at hk
    obtain ⟨n1, n2, n3, n4, n5, n6, n7, n8, n9, -⟩ := hk
    rw [getV_delV_other _ _ _ n9, getV_setV_other _ _ _ _ n8,
        getV_setV_other _ _ _ _ n7, getV_setV_other _ _ _ _ n6,
        getV_setV_other _ _ _ _ n5, getV_setV_other _ _ _ _ n4,
        getV_setV_other _ _ _ _ n3, getV_setV_other _ _ _ _ n2,
        getV_setV_other _ _ _ _ n1]
  · exact getV_delV_same _ _

theorem normalize_frame_witness :
    getV [("color", Value.vstr "red"), ("id", .vstr ""), ("brand", .vstr ""),
          ("category", .vstr ""), ("price", .vfloat 0),
          ("availability", .vstr "out_of_stock"), ("image_link", .vstr ""),
          ("title", .vstr ""), ("description", .vstr "")] "color" =
      getV [("color", Value.vstr "red")] "color" ∧
    getV [("color", Value.vstr "red"), ("id", .vstr ""), ("brand", .vstr ""),
          ("category", .vstr ""), ("price", .vfloat 0),
          ("availability", .vstr "out_of_stock"), ("image_link", .vstr ""),
          ("title", .vstr ""), ("description", .vstr "")] "image_urls" = none := by
  have h : normalizeDict [("color", Value.vstr "red")] =
      some [("color", Value.vstr "red"), ("id", .vstr ""), ("brand", .vstr ""),
            ("category", .vstr ""), ("price", .vfloat 0),
            ("availability", .vstr "out_of_stock"), ("image_link", .vstr ""),
            ("title", .vstr ""), ("description", .vstr "")] := by decide
  have h2 := normalize_frame _ _ h
  exact ⟨h2.1 "color" (by decide), h2.2⟩

theorem mem_insSorted (x s : String) (l : List String) :
    x ∈ insSorted s l ↔ x = s ∨ x ∈ l := by
  induction l with
  | nil => simp [insSorted]
  | cons y t ih =>
    simp only [insSorted]
    split
    · simp [List.mem_cons]
    · split
      · rename_i hsy
        subst hsy
        simp only [List.mem_cons]
        tauto
      · simp only [List.mem_cons, ih]
        tauto

theorem mem_sortDedupStr (x : String) (l : List String) :
    x ∈ sortDedupStr l ↔ x ∈ l := by
  induction l with
  | nil => simp [sortDedupStr]
  | cons y t ih =>
    simp only [sortDedupStr, List.foldr] at ih ⊢
    rw [mem_insSorted, ih, List.mem_cons]

theorem textIntents_subset (t : List Char) (x : String) (h : x ∈ textIntents t) :
    x ∈ ["affordable", "summer", "eco_friendly", "casual", "comfort"] := by
  simp only [textIntents, List.mem_filterMap] at h
  obtain ⟨kv, hkv, hx⟩ := h
  split at hx
  · simp only [Option.some_inj] at hx
    subst hx
    fin_cases hkv <;> decide
  · simp at hx

theorem categoryIntents_subset (v : Value) (ci : List String)
    (h : categoryIntentsV v = some ci) (x : String) (hx : x ∈ ci) :
    x ∈ ["dress_shopping", "cozy_wear"] := by
  cases v with
  | vstr s =>
    simp only [categoryIntentsV, Option.some_inj] at h
    subst h
    split at hx
    · simp only [List.mem_singleton] at hx; subst hx; decide
    · split at hx
      · simp only [List.mem_singleton] at hx; subst hx; decide
      · simp at hx
  | vint n => exact absurd h (by simp [categoryIntentsV])
  | vfloat q => exact absurd h (by simp [categoryIntentsV])
  | vnan => exact absurd h (by simp [categoryIntentsV])
  | vnone => exact absurd h (by simp [categoryIntentsV])
  | vstrlist l => exact absurd h (by simp [categoryIntentsV])

theorem mem_priceIntentsQ (q : ℚ) :
    "budget_friendly" ∈ priceIntentsQ q ↔ (0 < q ∧ q < 30) := by
  unfold priceIntentsQ
  split <;> rename_i h <;> simp [h]

/-- C4: the `budget_friendly` intent fires exactly when `0 < price < 30`
with both bounds strict; in particular `extract_intents` on a record with
price `29.99` includes it, and with price `30.0` or `0.0` it does not. -/
theorem budget_friendly_strict :
    (∀ q : ℚ, "budget_friendly" ∈ priceIntentsQ q ↔ (0 < q ∧ q < 30)) ∧
    (∀ (d : Dict) (l : List String), extractIntents d = some l →
      ((getVD d "price" (.vint 0) = .vfloat (2999/100) → "budget_friendly" ∈ l) ∧
       (getVD d "price" (.vint 0) = .vfloat 30 → "budget_friendly" ∉ l) ∧
       (getVD d "price" (.vint 0) = .vfloat 0 → "budget_friendly" ∉ l))) := by
  have hmem : ∀ (d : Dict) (l : List String), extractIntents d = some l →
      ∀ (q : ℚ), getVD d "price" (.vint 0) = .vfloat q →
      ("budget_friendly" ∈ l ↔ (0 < q ∧ q < 30)) := by
    intro d l hl q hq
    simp only [extractIntents, bind, Option.bind_eq_some, Option.some_inj] at hl
    obtain ⟨pli, hpli, cli, hcli, hl⟩ := hl
    subst hl
    rw [hq] at hpli
    simp only [priceIntentsV, Option.some_inj] at hpli
    subst hpli
    rw [mem_sortDedupStr]
    simp only [List.mem_append]
    constructor
    · rintro ((h | h) | h)
      · exact absurd (textIntents_subset _ _ h) (by decide)
      · exact (mem_priceIntentsQ q).mp h
      · exact absurd (categoryIntents_subset _ _ hcli _ h) (by decide)
    · intro h
      exact Or.inl (Or.inr ((mem_priceIntentsQ q).mpr h))
  refine ⟨mem_priceIntentsQ, fun d l hl => ⟨?_, ?_, ?_⟩⟩
  · intro hq
    exact (hmem d l hl _ hq).mpr (by norm_num)
  · intro hq hm
    have := (hmem d l hl _ hq).mp hm
    norm_num at this
  · intro hq hm
    have := (hmem d l hl _ hq).mp hm
    norm_num at this

theorem budget_friendly_strict_witness :
    "budget_friendly" ∈ ["budget_friendly"] ∧
    "budget_friendly" ∉ ["dress_shopping"] :=
  ⟨(budget_friendly_strict.2 [("price", .vfloat (2999/100))] ["budget_friendly"]
      (by decide)).1 rfl,
   (budget_friendly_strict.2 [("price", .vfloat 30), ("category", .vstr "dresses")]
      ["dress_shopping"] (by decide)).2.1 rfl⟩

theorem mem_cond (x y : String) (c : Prop) [Decidable c] :
    x ∈ (if c then [y] else ([] : List String)) ↔ (c ∧ x = y) := by
  by_cases h : c <;> simp [h]

theorem cond_block_sublist (c : Prop) [Decidable c] (y : String) :
    List.Sublist (if c then [y] else []) [y] := by
  split
  · exact List.Sublist.refl _
  · exact List.nil_sublist _

/-- C9: feature extraction returns a duplicate-free list drawn from the
fixed nine-tag vocabulary, and each material or color tag is present
exactly when its keyword occurs as a substring of the lowercased
space-joined title and description. -/
theorem features_vocab (p : Dict) :
    List.Sublist (extractFeatures p)
      ["cotton", "organic", "denim", "wool", "slim_fit", "stretchy",
       "white_color", "blue_color", "black_color"] ∧
    (extractFeatures p).Nodup ∧
    ("cotton" ∈ extractFeatures p ↔ containsL "cotton".data (combinedText p).data = true) ∧
    ("organic" ∈ extractFeatures p ↔ containsL "organic".data (combinedText p).data = true) ∧
    ("denim" ∈ extractFeatures p ↔ containsL "denim".data (combinedText p).data = true) ∧
    ("wool" ∈ extractFeatures p ↔ containsL "wool".data (combinedText p).data = true) ∧
    ("white_color" ∈ extractFeatures p ↔ containsL "white".data (combinedText p).data = true) ∧
    ("blue_color" ∈ extractFeatures p ↔ containsL "blue".data (combinedText p).data = true) ∧
    ("black_color" ∈ extractFeatures p ↔ containsL "black".data (combinedText p).data = true) := by
  have hsub : List.Sublist (extractFeatures p)
      ["cotton", "organic", "denim", "wool", "slim_fit", "stretchy",
       "white_color", "blue_color", "black_color"] := by
    unfold extractFeatures
    show List.Sublist _
      (["cotton"] ++ ["organic"] ++ ["denim"] ++ ["wool"] ++ ["slim_fit"] ++
        ["stretchy"] ++ ["white_color"] ++ ["blue_color"] ++ ["black_color"])
    exact ((((((((cond_block_sublist _ _).append
      (cond_block_sublist _ _)).append
      (cond_block_sublist _ _)).append
      (cond_block_sublist _ _)).append
      (cond_block_sublist _ _)).append
      (cond_block_sublist _ _)).append
      (cond_block_sublist _ _)).append
      (cond_block_sublist _ _)).append
      (cond_block_sublist _ _)
  refine ⟨hsub, hsub.nodup (by decide), ?_, ?_, ?_, ?_, ?_, ?_, ?_⟩ <;>
    simp [extractFeatures, mem_cond]

theorem getNode_setNode_self (ps : List (Value × GraphNode)) (k : Value) (n : GraphNode) :
    getNode (setNode ps k n) k = some n := by
  induction ps with
  | nil => simp [setNode, getNode]
  | cons kv t ih =>
    by_cases h : kv.1 = k
    · simp [setNode, h, getNode]
    · simp [setNode, h, getNode, ih]

theorem getNode_setNode_isSome (ps : List (Value × GraphNode)) (k k' : Value)
    (n : GraphNode) (h : (getNode ps k').isSome = true) :
    (getNode (setNode ps k n) k').isSome = true := by
  induction ps with
  | nil => simp [getNode] at h
  | cons kv t ih =>
    by_cases h1 : kv.1 = k
    · by_cases h2 : kv.1 = k'
      · simp [setNode, if_pos h1, getNode, if_pos h2]
      · have ht : (getNode t k').isSome = true := by simpa [getNode, h2] using h
        simp only [setNode, if_pos h1, getNode, if_neg h2]
        exact ht
    · by_cases h2 : kv.1 = k'
      · simp [setNode, if_neg h1, getNode, if_pos h2]
      · have ht : (getNode t k').isSome = true := by simpa [getNode, h2] using h
        simp only [setNode, if_neg h1, getNode, if_neg h2]
        exact ih ht

theorem createRels_source (p : Dict) (rels : List GraphRel)
    (h : createRels p = some rels) :
    ∀ r ∈ rels, r.source = getVD p "id" (.vstr "") := by
  simp only [createRels] at h
  split at h
  · simp only [Option.some_inj] at h
    subst h
    simp
  · simp only [bind, Option.bind_eq_some, Option.some_inj] at h
    obtain ⟨ints, hints, h⟩ := h
    subst h
    intro r hr
    rcases List.mem_append.mp hr with hr | hr
    · obtain ⟨i, -, rfl⟩ := List.mem_map.mp hr
      rfl
    · split at hr
      · simp only [List.mem_singleton] at hr
        subst hr
        rfl
      · simp at hr

theorem addRecord_ok (g g' : Graph) (p : Dict) (h : addRecord g p = some g')
    (hg : ∀ r ∈ g.relationships, (getNode g.products r.source).isSome = true) :
    ∀ r ∈ g'.relationships, (getNode g'.products r.source).isSome = true := by
  simp only [addRecord] at h
  split at h
  · simp only [Option.some_inj] at h
    subst h
    exact hg
  · simp only [bind, Option.bind_eq_some, Option.some_inj] at h
    obtain ⟨rels, hrels, h⟩ := h
    subst h
    intro r hr
    simp only [List.mem_append] at hr
    rcases hr with hr | hr
    · exact getNode_setNode_isSome _ _ _ _ (hg r hr)
    · rw [createRels_source p rels hrels r hr]
      rw [getNode_setNode_self]
      rfl

theorem buildGraphAux_ok (rs : List Dict) (g g' : Graph)
    (h : buildGraphAux g rs = some g')
    (hg : ∀ r ∈ g.relationships, (getNode g.products r.source).isSome = true) :
    ∀ r ∈ g'.relationships, (getNode g'.products r.source).isSome = true := by
  induction rs generalizing g with
  | nil =>
    simp only [buildGraphAux, Option.some_inj] at h
    subst h
    exact hg
  | cons p t ih =>
    simp only [buildGraphAux, bind, Option.bind_eq_some] at h
    obtain ⟨g1, hg1, h⟩ := h
    exact ih g1 h (addRecord_ok g g1 p hg1 hg)

theorem addRecord_skip (g : Graph) (p : Dict)
    (h : pyTruthy (getVD p "id" (.vstr "")) = false) : addRecord g p = some g := by
  simp [addRecord, h]

theorem buildGraphAux_filter (rs : List Dict) (g : Graph) :
    buildGraphAux g rs =
      buildGraphAux g (rs.filter (fun r => pyTruthy (getVD r "id" (.vstr "")))) := by
  induction rs generalizing g with
  | nil => rfl
  | cons p t ih =>
    by_cases hk : pyTruthy (getVD p "id" (.vstr "")) = true
    · rw [List.filter_cons_of_pos (by simpa using hk)]
      simp only [buildGraphAux, bind]
      cases haddr : addRecord g p with
      | none => rfl
      | some g1 => exact ih g1
    · rw [List.filter_cons_of_neg (by simpa using hk)]
      have h0 : addRecord g p = some g := addRecord_skip g p (by simpa using hk)
      simp only [buildGraphAux, bind, h0, Option.some_bind]
      exact ih g

/-- C8: every relationship in the built knowledge graph has a `source`
that is a key of the product map, and records with a falsy id — in
particular the empty id — contribute no node and no relationship: the
graph equals the graph built from the id-truthy records alone. -/
theorem kg_invariant (records : List Dict) (g : Graph)
    (h : buildGraph records = some g) :
    (∀ rel ∈ g.relationships, (getNode g.products rel.source).isSome = true) ∧
    buildGraph records =
      buildGraph (records.filter (fun r => pyTruthy (getVD r "id" (.vstr "")))) ∧
    pyTruthy (.vstr "") = false := by
  refine ⟨buildGraphAux_ok records _ g h ?_, buildGraphAux_filter records _, by decide⟩
  intro r hr
  cases hr

theorem kg_invariant_witness :
    (getNode [(Value.vstr "a",
        (⟨Value.vstr "", Value.vstr "", Value.vstrlist ["casual"], Value.vstrlist [],
          Value.vfloat 0⟩ : GraphNode))] (Value.vstr "a")).isSome = true := by
  have h : buildGraph [[("id", Value.vstr "a"), ("intents", Value.vstrlist ["casual"])],
      [("id", Value.vstr "")]] =
      some (⟨[(Value.vstr "a",
          ⟨Value.vstr "", Value.vstr "", Value.vstrlist ["casual"], Value.vstrlist [],
            Value.vfloat 0⟩)],
        [⟨"serves_intent", Value.vstr "a", Value.vstr "casual"⟩]⟩ : Graph) := by decide
  exact (kg_invariant _ _ h).1
    (⟨"serves_intent", Value.vstr "a", Value.vstr "casual"⟩ : GraphRel) (by decide)

theorem mem_insertScored (r x : MatchResult) (l : List MatchResult) :
    x ∈ insertScored r l ↔ x = r ∨ x ∈ l := by
  induction l with
  | nil => simp [insertScored]
  | cons y t ih =>
    simp only [insertScored]
    split <;> simp only [List.mem_cons, ih] <;> tauto

theorem insertScored_pairwise (r : MatchResult) (l : List MatchResult)
    (h : List.Pairwise (fun a b => b.score ≤ a.score) l) :
    List.Pairwise (fun a b => b.score ≤ a.score) (insertScored r l) := by
  induction l with
  | nil => simp [insertScored]
  | cons x t ih =>
    rw [List.pairwise_cons] at h
    obtain ⟨hx, ht⟩ := h
    simp only [insertScored]
    split
    · rename_i hlt
      rw [List.pairwise_cons]
      refine ⟨?_, ih ht⟩
      intro y hy
      rcases (mem_insertScored r y t).mp hy with rfl | hy
      · exact le_of_lt hlt
      · exact hx y hy
    · rename_i hnlt
      rw [List.pairwise_cons]
      refine ⟨?_, List.pairwise_cons.mpr ⟨hx, ht⟩⟩
      intro y hy
      rcases List.mem_cons.mp hy with rfl | hy
      · exact le_of_not_lt hnlt
      · exact le_trans (hx y hy) (le_of_not_lt hnlt)

theorem sortScored_pairwise (l : List MatchResult) :
    List.Pairwise (fun a b => b.score ≤ a.score) (sortScored l) := by
  induction l with
  | nil => simp [sortScored]
  | cons r t ih => exact insertScored_pairwise r _ ih

theorem insertScored_filter (r : MatchResult) (l : List MatchResult) (s : ℚ) :
    (insertScored r l).filter (fun x => x.score == s) =
      if r.score = s then r :: l.filter (fun x => x.score == s)
      else l.filter (fun x => x.score == s) := by
  induction l with
  | nil =>
    by_cases hr : r.score = s <;> simp [insertScored, List.filter_cons, hr]
  | cons x t ih =>
    simp only [insertScored]
    split
    · rename_i hlt
      by_cases hx : x.score = s
      · have hr : ¬ r.score = s := fun he => absurd hlt (by simp [he, hx])
        simp [List.filter_cons, hx, hr, ih]
      · by_cases hr : r.score = s <;> simp [List.filter_cons, hx, hr, ih]
    · rename_i hnlt
      by_cases hr : r.score = s <;> simp [List.filter_cons, hr]

theorem sortScored_filter (l : List MatchResult) (s : ℚ) :
    (sortScored l).filter (fun x => x.score == s) =
      l.filter (fun x => x.score == s) := by
  induction l with
  | nil => rfl
  | cons r t ih =>
    show (insertScored r (sortScored t)).filter _ = _
    rw [insertScored_filter]
    by_cases hr : r.score = s <;> simp [List.filter_cons, hr, ih]

/-- C3: `match_query` returns at most three results, in non-increasing
score order with equal-score results keeping their relative input order
(for any score value, the filtered subsequence of the scored input list
begins with the filtered subsequence of the output), and the empty record
sequence yields the empty list without error. -/
theorem match_query_top3 (simE : String → String → ℚ) (q : String)
    (prods : List Dict) (res : List MatchResult)
    (h : matchQuery simE q prods = some res) :
    res.length ≤ 3 ∧
    List.Pairwise (fun a b => b.score ≤ a.score) res ∧
    (∃ sl, scoreAll simE q prods = some sl ∧
      ∀ s : ℚ, ∃ rest, sl.filter (fun x => x.score == s) =
        res.filter (fun x => x.score == s) ++ rest) ∧
    (prods = [] → res = []) := by
  unfold matchQuery at h
  split at h
  · rename_i hemp
    have hp : prods = [] := List.isEmpty_iff.mp hemp
    simp only [Option.some_inj] at h
    subst h
    subst hp
    exact ⟨by simp, by simp, ⟨[], rfl, fun s => ⟨[], by simp⟩⟩, fun _ => rfl⟩
  · rename_i hemp
    simp only [bind, Option.bind_eq_some, Option.some_inj] at h
    obtain ⟨sl, hsl, hres⟩ := h
    subst hres
    refine ⟨List.length_take_le _ _,
      List.Pairwise.sublist (List.take_sublist _ _) (sortScored_pairwise sl),
      ⟨sl, hsl, fun s => ⟨((sortScored sl).drop topResults).filter (fun x => x.score == s), ?_⟩⟩,
      fun h0 => absurd (by simp [h0]) hemp⟩
    rw [← sortScored_filter sl s]
    conv_lhs => rw [← List.take_append_drop topResults (sortScored sl)]
    rw [List.filter_append]

theorem match_query_top3_witness :
    [(⟨Value.vstr "1", Value.vstr "", 0, "Partial match"⟩ : MatchResult)].length ≤ 3 := by
  have h : matchQuery (fun _ _ => 0) "" [[("id", Value.vstr "1")]] =
      some [⟨Value.vstr "1", Value.vstr "", 0, "Partial match"⟩] := by decide
  exact (match_query_top3 _ _ _ _ h).1

theorem foldl_reason_append (fs : List String) (init : List String)
    (P : String → Bool) (g : String → String) :
    fs.foldl (fun acc f => if P f then acc ++ [g f] else acc) init =
      init ++ (fs.filter P).map g := by
  induction fs generalizing init with
  | nil => simp
  | cons f t ih =>
    simp only [List.foldl, List.filter_cons]
    by_cases h : P f
    · simp only [h, if_pos, ih]
      simp
    · simp only [h, if_neg, ih]
      simp [h]

theorem joinSep_ne_empty (sep x : String) (xs : List String) (hx : x ≠ "") :
    joinSep sep (x :: xs) ≠ "" := by
  cases xs with
  | nil => exact hx
  | cons y t =>
    simp only [joinSep]
    intro h
    apply hx
    have hlen := congrArg String.length h
    simp only [String.length_append] at hlen
    have hz : ("" : String).length = 0 := rfl
    have h0 : x.length = 0 := by omega
    cases x with
    | mk xd =>
      cases xd with
      | nil => rfl
      | cons a b => simp [String.length] at h0

/-- C6: the match reason is exactly the `". "`-join of the applicable
parts — the strong-semantic note for similarity above one half, the
price-in-range note when the query contains `"under"` and the price is
strictly below the fixed 50 (independent of the parsed ceiling and of
`"below"`), and a `"Has ..."` note per feature whose rendering occurs in
the lowercased query — with the non-empty fallback `"Partial match"`
when no part applies; the reason is never the empty string. -/
theorem match_reason_spec (q : String) (p : Dict) (sim : ℚ) :
    genReason q p sim = reasonSpec q p sim ∧ genReason q p sim ≠ some "" := by
  have heq : genReason q p sim = reasonSpec q p sim := by
    by_cases hu : containsL "under".data (lowerS q).data = true
    · cases hlt : pyNumLt (getVD p "price" (.vint 0)) 50 with
      | none =>
        cases hv : valIter (getVD p "features" (.vstrlist [])) with
        | none => simp [genReason, reasonSpec, reasonParts, hu, hlt, hv, bind]
        | some fs => simp [genReason, reasonSpec, reasonParts, hu, hlt, hv, bind]
      | some b =>
        cases hv : valIter (getVD p "features" (.vstrlist [])) with
        | none => simp [genReason, reasonSpec, reasonParts, hu, hlt, hv, bind]
        | some fs =>
          simp only [genReason, reasonSpec, reasonParts, hu, hlt, hv, bind,
            if_pos, Option.bind_some, Option.some_bind, Option.map_some,
            foldl_reason_append, pure]
          simp [foldl_reason_append, List.append_assoc]
    · cases hv : valIter (getVD p "features" (.vstrlist [])) with
      | none => simp [genReason, reasonSpec, reasonParts, hu, hv, bind]
      | some fs =>
        simp only [genReason, reasonSpec, reasonParts, hu, hv, bind,
          Option.some_bind, Option.map_some, pure]
        simp [foldl_reason_append, List.append_assoc, hu]
  refine ⟨heq, ?_⟩
  rw [heq]
  unfold reasonSpec
  cases hp : reasonParts q p sim with
  | none => simp
  | some parts =>
    simp only [Option.map_some', ne_eq, Option.some_inj]
    have hne : ∀ y ∈ parts, y ≠ "" := by
      intro y hy
      have hparts : ∃ (fs : List String) (pOk : Bool), parts =
          (if (1 : ℚ)/2 < sim then ["Strong semantic match"] else []) ++
          (if pOk then ["Price in range ($" ++ pyStr (getVD p "price" (.vint 0)) ++ ")"] else []) ++
          (fs.filter (fun f => containsL (replUnd f).data (lowerS q).data)).map
            (fun f => "Has " ++ replUnd f) := by
        simp only [reasonParts, bind, Option.bind_eq_some, Option.some_inj] at hp
        obtain ⟨fs, hfs, hp2⟩ := hp
        by_cases hu : containsL "under".data (lowerS q).data = true
        · rw [if_pos hu] at hp2
          simp only [Option.bind_eq_some, Option.some_inj] at hp2
          obtain ⟨pOk, hpok, hparts⟩ := hp2
          exact ⟨fs, pOk, hparts.symm⟩
        · rw [if_neg hu] at hp2
          simp only [pure, Option.some_bind, Option.some_inj] at hp2
          exact ⟨fs, false, hp2.symm⟩
      obtain ⟨fs, pOk, hparts⟩ := hparts
      subst hparts
      simp only [List.mem_append] at hy
      rcases hy with (hy | hy) | hy
      · split at hy
        · simp only [List.mem_singleton] at hy
          subst hy
          decide
        · simp at hy
      · split at hy
        · simp only [List.mem_singleton] at hy
          subst hy
          intro h
          have hl := congrArg String.length h
          simp only [String.length_append] at hl
          have h1 : "Price in range ($".length = 17 := rfl
          have h2 : ("" : String).length = 0 := rfl
          omega
        · simp at hy
      · obtain ⟨f, -, rfl⟩ := List.mem_map.mp hy
        intro h
        have hl := congrArg String.length h
        simp only [String.length_append] at hl
        have h1 : "Has ".length = 4 := rfl
        have h2 : ("" : String).length = 0 := rfl
        omega
    split
    · decide
    · rename_i hne2
      obtain ⟨x, xs, rfl⟩ := List.exists_cons_of_ne_nil (by simpa using hne2)
      exact joinSep_ne_empty _ _ _ (hne x (List.mem_cons_self _ _))

theorem toNat_ofNat_valid (n : Nat) (h : n < 55296) : (Char.ofNat n).toNat = n := by
  unfold Char.ofNat
  have hv : n.isValidChar := Or.inl h
  rw [dif_pos hv]
  unfold Char.ofNatAux Char.toNat
  simp [UInt32.ofNat', UInt32.toNat]

theorem toLower_eq_newline (c : Char) (h : Char.toLower c = '\n') : c = '\n' := by
  unfold Char.toLower at h
  by_cases hr : c.toNat ≥ 65 ∧ c.toNat ≤ 90
  · rw [if_pos hr] at h
    have h1 : (Char.ofNat (c.toNat + 32)).toNat = c.toNat + 32 :=
      toNat_ofNat_valid _ (by omega)
    have h2 := congrArg Char.toNat h
    rw [h1] at h2
    have : ('\n' : Char).toNat = 10 := rfl
    omega
  · rwa [if_neg hr] at h

theorem dropWhile_head_not (p : Char → Bool) (l : List Char) (c : Char)
    (h : (l.dropWhile p).head? = some c) : p c = false := by
  induction l with
  | nil => simp [List.dropWhile] at h
  | cons a t ih =>
    by_cases ha : p a
    · rw [List.dropWhile_cons_of_pos ha] at h
      exact ih h
    · rw [List.dropWhile_cons_of_neg ha] at h
      simp only [List.head?_cons, Option.some_inj] at h
      subst h
      simpa using ha

theorem trimL_last_not_ws (l : List Char) (c : Char)
    (h : (trimL l).getLast? = some c) : isWsCh c = false := by
  unfold trimL stripEnds at h
  rw [List.getLast?_reverse] at h
  exact dropWhile_head_not _ _ _ h

theorem lowerL_getLast (l : List Char) :
    (lowerL l).getLast? = l.getLast?.map Char.toLower := by
  unfold lowerL
  rw [List.getLast?_eq_head?_reverse, ← List.map_reverse, List.head?_map,
    List.getLast?_eq_head?_reverse]

theorem trimmed_lower_last_not_newline (x : List Char) :
    (lowerL (trimL x)).getLast? ≠ some '\n' := by
  intro h
  rw [lowerL_getLast] at h
  cases hg : (trimL x).getLast? with
  | none => rw [hg] at h; simp at h
  | some c =>
    rw [hg] at h
    simp only [Option.map_some', Option.some_inj] at h
    have hc := toLower_eq_newline c h
    subst hc
    have := trimL_last_not_ws x '\n' hg
    simp [isWsCh] at this

theorem isEmpty_false_iff (s : String) : s.isEmpty = false ↔ s ≠ "" := by
  constructor
  · intro h hc
    subst hc
    exact absurd h (by decide)
  · intro h
    cases he : s.isEmpty
    · rfl
    · exact absurd ((String.isEmpty_iff _).mp he) h

theorem urlBadFirst_false (c : Char) :
    urlBadFirst c = false ↔ isWsCh c = false ∧ c ∉ ['/', '$', '.', '?', '#'] := by
  simp only [urlBadFirst, Bool.or_eq_false_iff, decide_eq_false_iff_not,
    List.mem_cons, List.mem_singleton, not_or, List.not_mem_nil]
  tauto

theorem urlTail_iff (t : List Char) :
    urlTail t = true ↔ ∃ c1 c2 tl, t = c1 :: c2 :: tl ∧ isWsCh c1 = false ∧
      c1 ∉ ['/', '$', '.', '?', '#'] ∧ c2 ≠ '\n' ∧ ∀ c ∈ tl, isWsCh c = false := by
  cases t with
  | nil => simp [urlTail]
  | cons c1 t2 =>
    cases t2 with
    | nil => simp [urlTail]
    | cons c2 tl =>
      simp only [urlTail, Bool.and_eq_true, Bool.not_eq_true', decide_eq_true_eq,
        List.all_eq_true, Bool.not_eq_true]
      constructor
      · rintro ⟨⟨hb, hn⟩, hall⟩
        obtain ⟨hw, hmem⟩ := (urlBadFirst_false c1).mp hb
        exact ⟨c1, c2, tl, rfl, hw, hmem, hn, hall⟩
      · rintro ⟨d1, d2, dl, heq, hw, hmem, hn, hall⟩
        injection heq with e1 heq
        injection heq with e2 e3
        subst e1
        subst e2
        subst e3
        exact ⟨⟨(urlBadFirst_false _).mpr ⟨hw, hmem⟩, hn⟩, hall⟩

theorem urlMatch_iff (s : String) (hnl : (lowerL s.data).getLast? ≠ some '\n') :
    urlMatch s = true ↔ urlOkP s.data := by
  unfold urlMatch urlOkP
  simp only []
  rw [if_neg hnl]
  by_cases hl1 : leadsWith "http://".data (lowerL s.data) = true
  · rw [if_pos hl1]
    obtain ⟨t, ht⟩ := (leadsWith_iff _ _).mp hl1
    rw [ht]
    have hd : ("http://".data ++ t).drop 7 = t := by
      simpa using List.drop_left "http://".data t
    rw [hd, urlTail_iff]
    constructor
    · rintro ⟨c1, c2, tl, rfl, hh⟩
      exact ⟨"http://".data, c1 :: c2 :: tl, rfl, Or.inl rfl, c1, c2, tl, rfl, hh⟩
    · rintro ⟨pre, rest, hm, hpre, c1, c2, tl, hrest, hh⟩
      rcases hpre with rfl | rfl | rfl
      · have := List.append_cancel_left hm
        subst this
        exact ⟨c1, c2, tl, hrest, hh⟩
      · rw [hm] at ht
        have hf : leadsWith "http://".data ("https://".data ++ rest) = false := by
          simp [leadsWith]
        rw [ht, hf] at hl1
        cases hl1
      · rw [hm] at ht
        have hf : leadsWith "http://".data ("www.".data ++ rest) = false := by
          simp [leadsWith]
        rw [ht, hf] at hl1
        cases hl1
  · rw [if_neg hl1]
    by_cases hl2 : leadsWith "https://".data (lowerL s.data) = true
    · rw [if_pos hl2]
      obtain ⟨t, ht⟩ := (leadsWith_iff _ _).mp hl2
      rw [ht] at hl1
      rw [ht]
      have hd : ("https://".data ++ t).drop 8 = t := by
        simpa using List.drop_left "https://".data t
      rw [hd, urlTail_iff]
      constructor
      · rintro ⟨c1, c2, tl, rfl, hh⟩
        exact ⟨"https://".data, c1 :: c2 :: tl, rfl, Or.inr (Or.inl rfl), c1, c2, tl, rfl, hh⟩
      · rintro ⟨pre, rest, hm, hpre, c1, c2, tl, hrest, hh⟩
        rcases hpre with rfl | rfl | rfl
        · exact absurd ((leadsWith_iff _ _).mpr ⟨rest, hm⟩) hl1
        · have := List.append_cancel_left hm
          subst this
          exact ⟨c1, c2, tl, hrest, hh⟩
        · rw [hm] at ht
          have hf : leadsWith "https://".data ("www.".data ++ rest) = false := by
            simp [leadsWith]
          rw [ht, hf] at hl2
          cases hl2
    · rw [if_neg hl2]
      by_cases hl3 : leadsWith "www.".data (lowerL s.data) = true
      · rw [if_pos hl3]
        obtain ⟨t, ht⟩ := (leadsWith_iff _ _).mp hl3
        rw [ht] at hl1 hl2
        rw [ht]
        have hd : ("www.".data ++ t).drop 4 = t := by
          simpa using List.drop_left "www.".data t
        rw [hd, urlTail_iff]
        constructor
        · rintro ⟨c1, c2, tl, rfl, hh⟩
          exact ⟨"www.".data, c1 :: c2 :: tl, rfl, Or.inr (Or.inr rfl), c1, c2, tl, rfl, hh⟩
        · rintro ⟨pre, rest, hm, hpre, c1, c2, tl, hrest, hh⟩
          rcases hpre with rfl | rfl | rfl
          · exact absurd ((leadsWith_iff _ _).mpr ⟨rest, hm⟩) hl1
          · exact absurd ((leadsWith_iff _ _).mpr ⟨rest, hm⟩) hl2
          · have := List.append_cancel_left hm
            subst this
            exact ⟨c1, c2, tl, hrest, hh⟩
      · rw [if_neg hl3]
        constructor
        · intro h
          cases h
        · rintro ⟨pre, rest, hm, hpre, hh⟩
          rcases hpre with rfl | rfl | rfl
          · exact absurd ((leadsWith_iff _ _).mpr ⟨rest, hm⟩) hl1
          · exact absurd ((leadsWith_iff _ _).mpr ⟨rest, hm⟩) hl2
          · exact absurd ((leadsWith_iff _ _).mpr ⟨rest, hm⟩) hl3

theorem firstSegment_trimmed (s : String) : ∃ x, (firstSegment s).data = trimL x := by
  simp only [firstSegment]
  split
  · exact ⟨_, rfl⟩
  · exact ⟨_, rfl⟩

theorem firstSegment_no_newline (s : String) :
    (lowerL (firstSegment s).data).getLast? ≠ some '\n' := by
  obtain ⟨x, hx⟩ := firstSegment_trimmed s
  rw [hx]
  exact trimmed_lower_last_not_newline x

theorem normalizeImageLinkV_eq (s : String) (hse : s ≠ "") :
    normalizeImageLinkV (.vstr s) =
      some (if (!(firstSegment s).isEmpty && urlMatch (firstSegment s)) = true
            then firstSegment s else "") := by
  have htr : pyTruthy (.vstr s) = true := by
    simp only [pyTruthy, Bool.not_eq_true']
    exact (isEmpty_false_iff s).mpr hse
  simp only [normalizeImageLinkV, htr, Bool.not_true, Bool.false_eq_true, if_false]
  rfl

/-- C7 counterexample: the claim's validity reading — a recognised prefix
followed by non-whitespace — accepts `"http://a"`, but the code's pattern
requires at least two characters after the prefix and rejects it, so the
normalizer returns the empty string there. -/
theorem image_link_claim_counterexample :
    claimUrlValid "http://a" = true ∧
    normalizeImageLinkV (.vstr "http://a") = some "" := by
  decide

/-- C7 amended: for a raw string value, the image-link normalizer returns
the trimmed first pipe-delimited segment exactly when that nonempty
segment matches the full URL pattern — a `http://`, `https://` or `www.`
prefix (case-insensitive) followed by one character outside whitespace
and `/$.?#`, a second character other than a newline, and no whitespace
afterwards; otherwise (and on `None`/NaN input) it returns the empty
string, never raising. -/
theorem image_link_regex (s : String) :
    (urlOkP (firstSegment s).data ∧ firstSegment s ≠ "" →
       normalizeImageLinkV (.vstr s) = some (firstSegment s)) ∧
    (¬ (urlOkP (firstSegment s).data ∧ firstSegment s ≠ "") →
       normalizeImageLinkV (.vstr s) = some "") ∧
    normalizeImageLinkV .vnone = some "" ∧
    normalizeImageLinkV .vnan = some "" := by
  refine ⟨?_, ?_, rfl, rfl⟩
  · rintro ⟨hok, hne⟩
    have hse : s ≠ "" := by
      intro hc
      subst hc
      exact hne (by decide)
    rw [normalizeImageLinkV_eq s hse]
    have hm : urlMatch (firstSegment s) = true :=
      (urlMatch_iff _ (firstSegment_no_newline s)).mpr hok
    have hie : (firstSegment s).isEmpty = false := (isEmpty_false_iff _).mpr hne
    rw [if_pos (by rw [Bool.and_eq_true, Bool.not_eq_true']; exact ⟨hie, hm⟩)]
  · intro hnc
    by_cases hse : s = ""
    · subst hse
      decide
    · rw [normalizeImageLinkV_eq s hse]
      rw [if_neg]
      intro hb
      apply hnc
      rw [Bool.and_eq_true, Bool.not_eq_true'] at hb
      obtain ⟨hie, hm⟩ := hb
      exact ⟨(urlMatch_iff _ (firstSegment_no_newline s)).mp hm,
        (isEmpty_false_iff _).mp hie⟩

theorem image_link_regex_witness :
    normalizeImageLinkV (.vstr "http://ab") = some "http://ab" ∧
    normalizeImageLinkV (.vstr "http://a") = some "" := by
  constructor
  · have h1 := (image_link_regex "http://ab").1
    have hfs : firstSegment "http://ab" = "http://ab" := by decide
    rw [hfs] at h1
    apply h1
    refine ⟨⟨"http://".data, ['a', 'b'], by decide, Or.inl rfl,
      'a', 'b', [], rfl, by decide, by decide, by decide, by simp⟩, by decide⟩
  · apply (image_link_regex "http://a").2.1
    rintro ⟨hok, -⟩
    have hfs : firstSegment "http://a" = "http://a" := by decide
    rw [hfs] at hok
    have h2 : urlMatch "http://a" = true := (urlMatch_iff _ (by decide)).mpr hok
    exact absurd h2 (by decide)

theorem char_eq_of_toNat (c d : Char) (h : c.toNat = d.toNat) : c = d :=
  Char.eq_of_val_eq (UInt32.ext h)

theorem toLower_toUpper (c : Char) : Char.toLower (Char.toUpper c) = Char.toLower c := by
  unfold Char.toUpper Char.toLower
  by_cases h : c.toNat ≥ 97 ∧ c.toNat ≤ 122
  · rw [if_pos h]
    have h1 : (Char.ofNat (c.toNat - 32)).toNat = c.toNat - 32 :=
      toNat_ofNat_valid _ (by omega)
    rw [h1, if_pos (by omega), if_neg (by omega)]
    have h2 : c.toNat - 32 + 32 = c.toNat := by omega
    rw [h2, Char.ofNat_toNat]
  · simp only [if_neg h]

theorem toLower_toLower (c : Char) : Char.toLower (Char.toLower c) = Char.toLower c := by
  unfold Char.toLower
  by_cases h : c.toNat ≥ 65 ∧ c.toNat ≤ 90
  · rw [if_pos h]
    have h1 : (Char.ofNat (c.toNat + 32)).toNat = c.toNat + 32 :=
      toNat_ofNat_valid _ (by omega)
    rw [h1, if_neg (by omega)]
  · simp only [if_neg h]

theorem toUpper_toUpper (c : Char) : Char.toUpper (Char.toUpper c) = Char.toUpper c := by
  unfold Char.toUpper
  by_cases h : c.toNat ≥ 97 ∧ c.toNat ≤ 122
  · rw [if_pos h]
    have h1 : (Char.ofNat (c.toNat - 32)).toNat = c.toNat - 32 :=
      toNat_ofNat_valid _ (by omega)
    rw [h1, if_neg (by omega)]
  · simp only [if_neg h]

theorem alphaCh_toUpper (c : Char) : alphaCh (Char.toUpper c) = alphaCh c := by
  unfold Char.toUpper alphaCh
  by_cases h : c.toNat ≥ 97 ∧ c.toNat ≤ 122
  · rw [if_pos h]
    have h1 : (Char.ofNat (c.toNat - 32)).toNat = c.toNat - 32 :=
      toNat_ofNat_valid _ (by omega)
    rw [h1]
    apply Bool.eq_iff_iff.mpr
    simp only [Bool.or_eq_true, Bool.and_eq_true, decide_eq_true_eq]
    omega
  · rw [if_neg h]

theorem alphaCh_toLower (c : Char) : alphaCh (Char.toLower c) = alphaCh c := by
  unfold Char.toLower alphaCh
  by_cases h : c.toNat ≥ 65 ∧ c.toNat ≤ 90
  · rw [if_pos h]
    have h1 : (Char.ofNat (c.toNat + 32)).toNat = c.toNat + 32 :=
      toNat_ofNat_valid _ (by omega)
    rw [h1]
    apply Bool.eq_iff_iff.mpr
    simp only [Bool.or_eq_true, Bool.and_eq_true, decide_eq_true_eq]
    omega
  · rw [if_neg h]

theorem isWsCh_iff (c : Char) : isWsCh c = true ↔
    (c.toNat = 32 ∨ c.toNat = 9 ∨ c.toNat = 10 ∨ c.toNat = 13 ∨
     c.toNat = 11 ∨ c.toNat = 12) := by
  unfold isWsCh
  simp only [Bool.or_eq_true, decide_eq_true_eq]
  constructor
  · rintro (((((rfl | rfl) | rfl) | rfl) | rfl) | rfl) <;> decide
  · rintro (h | h | h | h | h | h)
    · have : c = ' ' := char_eq_of_toNat _ _ (by rw [h]; rfl)
      tauto
    · have : c = '\t' := char_eq_of_toNat _ _ (by rw [h]; rfl)
      tauto
    · have : c = '\n' := char_eq_of_toNat _ _ (by rw [h]; rfl)
      tauto
    · have : c = '\x0d' := char_eq_of_toNat _ _ (by rw [h]; rfl)
      tauto
    · have : c = '\x0b' := char_eq_of_toNat _ _ (by rw [h]; rfl)
      tauto
    · have : c = '\x0c' := char_eq_of_toNat _ _ (by rw [h]; rfl)
      tauto

theorem isWsCh_false_of_range (c : Char) (h1 : 9 ≤ c.toNat → 14 ≤ c.toNat)
    (h2 : c.toNat ≠ 32) : isWsCh c = false := by
  cases hw : isWsCh c
  · rfl
  · have := (isWsCh_iff c).mp hw
    omega

theorem isWsCh_toUpper (c : Char) : isWsCh (Char.toUpper c) = isWsCh c := by
  by_cases h : c.toNat ≥ 97 ∧ c.toNat ≤ 122
  · have h1 : (Char.toUpper c).toNat = c.toNat - 32 := by
      unfold Char.toUpper
      rw [if_pos h]
      exact toNat_ofNat_valid _ (by omega)
    rw [isWsCh_false_of_range c (by omega) (by omega),
      isWsCh_false_of_range _ (by omega) (by omega)]
  · unfold Char.toUpper
    rw [if_neg h]

theorem isWsCh_toLower (c : Char) : isWsCh (Char.toLower c) = isWsCh c := by
  by_cases h : c.toNat ≥ 65 ∧ c.toNat ≤ 90
  · have h1 : (Char.toLower c).toNat = c.toNat + 32 := by
      unfold Char.toLower
      rw [if_pos h]
      exact toNat_ofNat_valid _ (by omega)
    rw [isWsCh_false_of_range c (by omega) (by omega),
      isWsCh_false_of_range _ (by omega) (by omega)]
  · unfold Char.toLower
    rw [if_neg h]

theorem toLower_fix_nonupper (c : Char) (h : ¬ (c.toNat ≥ 65 ∧ c.toNat ≤ 90)) :
    Char.toLower c = c := by
  unfold Char.toLower
  rw [if_neg h]

theorem dropWhile_eq_self_of_head (p : Char → Bool) (l : List Char)
    (h : ∀ c, l.head? = some c → p c = false) : List.dropWhile p l = l := by
  cases l with
  | nil => rfl
  | cons a t =>
    rw [List.dropWhile_cons_of_neg]
    simp [h a rfl]

theorem rdropWhile_head (p : Char → Bool) (X : List Char) (c : Char)
    (h : (List.rdropWhile p X).head? = some c) : X.head? = some c := by
  obtain ⟨t, ht⟩ := List.rdropWhile_prefix p X
  rw [← ht]
  cases hrd : List.rdropWhile p X with
  | nil => rw [hrd] at h; cases h
  | cons a b =>
    rw [hrd] at h
    simpa using h

theorem stripEnds_eq_rdrop (p : Char → Bool) (l : List Char) :
    stripEnds p l = List.rdropWhile p (List.dropWhile p l) := rfl

theorem stripEnds_idem (p : Char → Bool) (l : List Char) :
    stripEnds p (stripEnds p l) = stripEnds p l := by
  rw [stripEnds_eq_rdrop, stripEnds_eq_rdrop]
  have h1 : List.dropWhile p (List.rdropWhile p (List.dropWhile p l)) =
      List.rdropWhile p (List.dropWhile p l) := by
    apply dropWhile_eq_self_of_head
    intro c hc
    exact dropWhile_head_not p l c (rdropWhile_head p _ c hc)
  rw [h1, List.rdropWhile_idempotent]

theorem stripEnds_eq_self (p : Char → Bool) (l : List Char)
    (hh : ∀ c, l.head? = some c → p c = false)
    (hl : ∀ c, l.getLast? = some c → p c = false) : stripEnds p l = l := by
  rw [stripEnds_eq_rdrop, dropWhile_eq_self_of_head p l hh,
    List.rdropWhile_eq_self_iff]
  intro hne hp
  have hg : l.getLast? = some (l.getLast hne) := List.getLast?_eq_getLast l hne
  have := hl _ hg
  rw [this] at hp
  cases hp

theorem head_mem_chars (l : List Char) (c : Char) (h : l.head? = some c) : c ∈ l := by
  cases l with
  | nil => cases h
  | cons a t =>
    simp only [List.head?_cons, Option.some_inj] at h
    subst h
    exact List.mem_cons_self _ _

theorem getLast_mem_chars (l : List Char) (c : Char) (h : l.getLast? = some c) : c ∈ l := by
  cases l with
  | nil => cases h
  | cons a t =>
    have := List.getLast?_eq_getLast (a :: t) (by simp)
    rw [this] at h
    simp only [Option.some_inj] at h
    subst h
    exact List.getLast_mem _

theorem stripEnds_all_not (p : Char → Bool) (l : List Char)
    (h : ∀ c ∈ l, p c = false) : stripEnds p l = l :=
  stripEnds_eq_self p l (fun c hc => h c (head_mem_chars l c hc))
    (fun c hc => h c (getLast_mem_chars l c hc))

theorem dropWhile_map_comm (p : Char → Bool) (f : Char → Char)
    (hf : ∀ c, p (f c) = p c) (l : List Char) :
    List.dropWhile p (l.map f) = (List.dropWhile p l).map f := by
  induction l with
  | nil => rfl
  | cons a t ih =>
    by_cases ha : p a = true
    · rw [List.map_cons, List.dropWhile_cons_of_pos (by rw [hf]; exact ha),
        List.dropWhile_cons_of_pos ha]
      exact ih
    · rw [List.map_cons, List.dropWhile_cons_of_neg (by rw [hf]; exact ha),
        List.dropWhile_cons_of_neg ha, List.map_cons]

theorem stripEnds_map_comm (p : Char → Bool) (f : Char → Char)
    (hf : ∀ c, p (f c) = p c) (l : List Char) :
    stripEnds p (l.map f) = (stripEnds p l).map f := by
  unfold stripEnds
  rw [dropWhile_map_comm p f hf, ← List.map_reverse, dropWhile_map_comm p f hf,
    ← List.map_reverse]

theorem trimL_lowerL_comm (l : List Char) : trimL (lowerL l) = lowerL (trimL l) :=
  stripEnds_map_comm isWsCh Char.toLower isWsCh_toLower l

theorem trimL_idem (l : List Char) : trimL (trimL l) = trimL l :=
  stripEnds_idem isWsCh l

theorem lowerL_idem (l : List Char) : lowerL (lowerL l) = lowerL l := by
  unfold lowerL
  rw [List.map_map]
  exact List.map_congr_left (fun c _ => toLower_toLower c)

theorem dropWhile_all_of_trimmed (l : List Char) (h : trimL l = l) :
    List.dropWhile isWsCh l = l := by
  have h1 : List.rdropWhile isWsCh (List.dropWhile isWsCh l) = l := h
  have h2 : List.dropWhile isWsCh l <:+ l := List.dropWhile_suffix _
  have h3 : List.rdropWhile isWsCh (List.dropWhile isWsCh l) <+:
      List.dropWhile isWsCh l := List.rdropWhile_prefix _ _
  have h4 : l.length ≤ (List.dropWhile isWsCh l).length := by
    have := h3.length_le
    rw [h1] at this
    exact this
  exact List.IsSuffix.eq_of_length h2 (le_antisymm h2.length_le h4)

theorem trimmed_head_not_ws (l : List Char) (h : trimL l = l) (c : Char)
    (hc : l.head? = some c) : isWsCh c = false := by
  have hd := dropWhile_all_of_trimmed l h
  rw [← hd] at hc
  exact dropWhile_head_not _ _ _ hc

theorem trimmed_getLast_not_ws (l : List Char) (h : trimL l = l) (c : Char)
    (hc : l.getLast? = some c) : isWsCh c = false := by
  have hd := dropWhile_all_of_trimmed l h
  have hr : List.rdropWhile isWsCh l = l := by
    conv_lhs => rw [← hd]
    exact h
  have hne : l ≠ [] := by
    intro e
    subst e
    cases hc
  have := List.rdropWhile_eq_self_iff.mp hr hne
  rw [List.getLast?_eq_getLast l hne, Option.some_inj] at hc
  subst hc
  cases hw : isWsCh (l.getLast hne)
  · rfl
  · exact absurd hw this

theorem lowerL_titleL (l : List Char) (b : Bool) : lowerL (titleL l b) = lowerL l := by
  induction l generalizing b with
  | nil => rfl
  | cons c t ih =>
    simp only [titleL, lowerL, List.map_cons] at ih ⊢
    cases b <;> simp [toLower_toLower, toLower_toUpper, ih]

theorem titleL_titleL (l : List Char) (b : Bool) : titleL (titleL l b) b = titleL l b := by
  induction l generalizing b with
  | nil => rfl
  | cons c t ih =>
    simp only [titleL]
    cases b <;>
      simp [toLower_toLower, toUpper_toUpper, alphaCh_toLower, alphaCh_toUpper, ih]

theorem titleL_head (l : List Char) (b : Bool) (c : Char)
    (h : (titleL l b).head? = some c) :
    ∃ d, l.head? = some d ∧ isWsCh c = isWsCh d := by
  cases l with
  | nil => cases h
  | cons a t =>
    simp only [titleL, List.head?_cons, Option.some_inj] at h
    subst h
    refine ⟨a, rfl, ?_⟩
    cases b
    · exact isWsCh_toUpper a
    · exact isWsCh_toLower a

theorem getLast?_cons_ne (a : Char) (l : List Char) (h : l ≠ []) :
    (a :: l).getLast? = l.getLast? := by
  cases l with
  | nil => exact absurd rfl h
  | cons b t => exact List.getLast?_cons_cons

theorem titleL_ne_nil (l : List Char) (b : Bool) (h : l ≠ []) : titleL l b ≠ [] := by
  cases l with
  | nil => exact absurd rfl h
  | cons a t => simp [titleL]

theorem titleL_getLast (l : List Char) (b : Bool) (c : Char)
    (h : (titleL l b).getLast? = some c) :
    ∃ d, l.getLast? = some d ∧ isWsCh c = isWsCh d := by
  induction l generalizing b with
  | nil => cases h
  | cons a t ih =>
    cases t with
    | nil =>
      simp only [titleL, List.getLast?_singleton, Option.some_inj] at h
      subst h
      refine ⟨a, rfl, ?_⟩
      cases b
      · exact isWsCh_toUpper a
      · exact isWsCh_toLower a
    | cons a2 t2 =>
      have hne : titleL (a2 :: t2) (alphaCh a) ≠ [] := titleL_ne_nil _ _ (by simp)
      rw [show titleL (a :: a2 :: t2) b =
          (if b then Char.toLower a else Char.toUpper a) :: titleL (a2 :: t2) (alphaCh a)
        from rfl, getLast?_cons_ne _ _ hne] at h
      obtain ⟨d, hd, hws⟩ := ih (alphaCh a) h
      exact ⟨d, by rw [List.getLast?_cons_cons]; exact hd, hws⟩

theorem trimL_titleL_fix (l : List Char) (h : trimL l = l) (b : Bool) :
    trimL (titleL l b) = titleL l b := by
  apply stripEnds_eq_self
  · intro c hc
    obtain ⟨d, hd, hws⟩ := titleL_head l b c hc
    rw [hws]
    exact trimmed_head_not_ws l h d hd
  · intro c hc
    obtain ⟨d, hd, hws⟩ := titleL_getLast l b c hc
    rw [hws]
    exact trimmed_getLast_not_ws l h d hd

theorem collapseWsL_ne_nil : ∀ l : List Char, l ≠ [] → collapseWsL l ≠ []
  | [], h => absurd rfl h
  | [c], _ => by
    simp only [collapseWsL]
    split <;> simp
  | c1 :: c2 :: t, _ => by
    simp only [collapseWsL]
    split
    · exact collapseWsL_ne_nil (c2 :: t) (by simp)
    · simp

theorem collapseWsL_head : ∀ (l : List Char) (c : Char), l.head? = some c →
    isWsCh c = false → (collapseWsL l).head? = some c
  | [c0], c, h, hw => by
    simp only [List.head?_cons, Option.some_inj] at h
    subst h
    simp [collapseWsL, hw]
  | c1 :: c2 :: t, c, h, hw => by
    simp only [List.head?_cons, Option.some_inj] at h
    subst h
    simp only [collapseWsL, hw, Bool.false_and, Bool.false_eq_true, if_false]
    simp [hw]

theorem collapseWsL_getLast : ∀ (l : List Char) (c : Char), l.getLast? = some c →
    isWsCh c = false → (collapseWsL l).getLast? = some c
  | [c0], c, h, hw => by
    simp only [List.getLast?_singleton, Option.some_inj] at h
    subst h
    simp [collapseWsL, hw]
  | c1 :: c2 :: t, c, h, hw => by
    have h2 : (c2 :: t).getLast? = some c := by rwa [List.getLast?_cons_cons] at h
    have ih := collapseWsL_getLast (c2 :: t) c h2 hw
    have hne : collapseWsL (c2 :: t) ≠ [] := collapseWsL_ne_nil _ (by simp)
    simp only [collapseWsL]
    split
    · exact ih
    · rw [getLast?_cons_ne _ _ hne]
      exact ih

theorem collapseWsL_chain : ∀ l : List Char,
    List.Chain' (fun a b => ¬(isWsCh a = true ∧ isWsCh b = true)) (collapseWsL l)
  | [] => by simp [collapseWsL]
  | [c] => by
    simp only [collapseWsL]
    split <;> simp
  | c1 :: c2 :: t => by
    simp only [collapseWsL]
    split
    · exact collapseWsL_chain (c2 :: t)
    · rename_i hcond
      rw [List.chain'_cons']
      refine ⟨?_, collapseWsL_chain (c2 :: t)⟩
      intro y hy
      by_cases hw1 : isWsCh c1 = true
      · have hw2 : isWsCh c2 = false := by
          cases hv : isWsCh c2
          · rfl
          · rw [hw1, hv] at hcond
            simp at hcond
        have hh := collapseWsL_head (c2 :: t) c2 rfl hw2
        rw [hh, Option.mem_def, Option.some_inj] at hy
        subst hy
        simp [hw2]
      · simp only [if_neg hw1]
        simp only [Bool.not_eq_true] at hw1
        simp [hw1]

theorem collapseWsL_all_space : ∀ l : List Char, ∀ c ∈ collapseWsL l,
    isWsCh c = true → c = ' '
  | [], c, hc, _ => by simp [collapseWsL] at hc
  | [c0], c, hc, hw => by
    simp only [collapseWsL] at hc
    split at hc
    · simpa using hc
    · rename_i hws
      simp only [List.mem_singleton] at hc
      subst hc
      exact absurd hw (by simpa using hws)
  | c1 :: c2 :: t, c, hc, hw => by
    simp only [collapseWsL] at hc
    split at hc
    · exact collapseWsL_all_space (c2 :: t) c hc hw
    · rcases List.mem_cons.mp hc with rfl | hc
      · by_cases hw1 : isWsCh c1 = true
        · simp [hw1]
        · rw [if_neg hw1] at hw
          exact absurd hw hw1
      · exact collapseWsL_all_space (c2 :: t) c hc hw

theorem collapseWsL_eq_self : ∀ l : List Char,
    List.Chain' (fun a b => ¬(isWsCh a = true ∧ isWsCh b = true)) l →
    (∀ c ∈ l, isWsCh c = true → c = ' ') → collapseWsL l = l
  | [], _, _ => rfl
  | [c], _, h2 => by
    simp only [collapseWsL]
    split
    · rename_i hws
      rw [h2 c (by simp) hws]
    · rfl
  | c1 :: c2 :: t, h1, h2 => by
    obtain ⟨hr, hrest⟩ := List.chain'_cons.mp h1
    have hcond : (isWsCh c1 && isWsCh c2) = false := by
      cases hv1 : isWsCh c1
      · rfl
      · cases hv2 : isWsCh c2
        · rfl
        · exact absurd ⟨hv1, hv2⟩ hr
    simp only [collapseWsL, hcond, Bool.false_eq_true, if_false]
    congr 1
    · split
      · rename_i hws
        exact (h2 c1 (by simp) hws).symm
      · rfl
    · exact collapseWsL_eq_self (c2 :: t) hrest
        (fun c hc hw => h2 c (List.mem_cons_of_mem _ hc) hw)

theorem stripEnds_infixL (p : Char → Bool) (l : List Char) : stripEnds p l <:+: l := by
  rw [stripEnds_eq_rdrop]
  exact (List.rdropWhile_prefix p _).isInfix.trans (List.dropWhile_suffix p).isInfix

theorem mem_catSub1 : ∀ l : List Char, ∀ c ∈ catSub1 l,
    c = '/' ∨ (c ∈ l ∧ isCatSep c = false)
  | [], c, hc => by simp [catSub1] at hc
  | [c0], c, hc => by
    simp only [catSub1] at hc
    split at hc
    · left
      simpa using hc
    · rename_i hcs
      simp only [List.mem_singleton] at hc
      subst hc
      right
      exact ⟨List.mem_singleton_self _, by simpa using hcs⟩
  | c1 :: c2 :: t, c, hc => by
    simp only [catSub1] at hc
    split at hc
    · rcases mem_catSub1 (c2 :: t) c hc with h | ⟨hm, hs⟩
      · exact Or.inl h
      · exact Or.inr ⟨List.mem_cons_of_mem _ hm, hs⟩
    · rcases List.mem_cons.mp hc with rfl | hc2
      · by_cases h1 : isCatSep c1 = true
        · left
          simp [h1]
        · right
          rw [if_neg h1]
          exact ⟨List.mem_cons_self _ _, Bool.not_eq_true _ ▸ h1⟩
      · rcases mem_catSub1 (c2 :: t) c hc2 with h | ⟨hm, hs⟩
        · exact Or.inl h
        · exact Or.inr ⟨List.mem_cons_of_mem _ hm, hs⟩

theorem catSub1_eq_self : ∀ l : List Char, (∀ c ∈ l, isCatSep c = false) → catSub1 l = l
  | [], _ => rfl
  | [c], h => by
    have hc := h c (List.mem_singleton_self c)
    simp [catSub1, hc]
  | c1 :: c2 :: t, h => by
    have h1 := h c1 (by simp)
    have hcond : (isCatSep c1 && isCatSep c2) = false := by rw [h1]; rfl
    simp only [catSub1, hcond, Bool.false_eq_true, if_false]
    rw [if_neg (by rw [h1]; exact Bool.false_ne_true)]
    congr 1
    exact catSub1_eq_self (c2 :: t) (fun c hc => h c (List.mem_cons_of_mem _ hc))

theorem slashCollapse_sublist : ∀ l : List Char, List.Sublist (slashCollapse l) l
  | [] => List.Sublist.refl _
  | [_] => List.Sublist.refl _
  | c1 :: c2 :: t => by
    simp only [slashCollapse]
    split
    · exact List.Sublist.cons _ (slashCollapse_sublist (c2 :: t))
    · exact List.Sublist.cons₂ _ (slashCollapse_sublist (c2 :: t))

theorem slashCollapse_head : ∀ (l : List Char) (c : Char), l.head? = some c →
    (slashCollapse l).head? = some c
  | [c0], c, h => by simpa [slashCollapse] using h
  | c1 :: c2 :: t, c, h => by
    simp only [List.head?_cons, Option.some_inj] at h
    subst h
    simp only [slashCollapse]
    split
    · rename_i hcond
      simp only [Bool.and_eq_true, decide_eq_true_eq] at hcond
      obtain ⟨h1, h2⟩ := hcond
      rw [slashCollapse_head (c2 :: t) c2 rfl, h1, h2]
    · simp

theorem slashCollapse_chain : ∀ l : List Char,
    List.Chain' (fun a b => ¬(a = '/' ∧ b = '/')) (slashCollapse l)
  | [] => by simp [slashCollapse]
  | [c] => by simp [slashCollapse]
  | c1 :: c2 :: t => by
    simp only [slashCollapse]
    split
    · exact slashCollapse_chain (c2 :: t)
    · rename_i hcond
      rw [List.chain'_cons']
      refine ⟨?_, slashCollapse_chain (c2 :: t)⟩
      intro y hy hand
      obtain ⟨h1, h2⟩ := hand
      have hy2 := slashCollapse_head (c2 :: t) c2 rfl
      rw [hy2, Option.mem_def, Option.some_inj] at hy
      subst hy
      rw [h1, h2] at hcond
      simp at hcond

theorem slashCollapse_eq_self : ∀ l : List Char,
    List.Chain' (fun a b => ¬(a = '/' ∧ b = '/')) l → slashCollapse l = l
  | [], _ => rfl
  | [_], _ => rfl
  | c1 :: c2 :: t, h => by
    obtain ⟨hr, hrest⟩ := List.chain'_cons.mp h
    have hcond : (decide (c1 = '/') && decide (c2 = '/')) = false := by
      by_cases h1 : c1 = '/'
      · by_cases h2 : c2 = '/'
        · exact absurd ⟨h1, h2⟩ hr
        · simp [h2]
      · simp [h1]
    simp only [slashCollapse, hcond, Bool.false_eq_true, if_false]
    congr 1
    exact slashCollapse_eq_self (c2 :: t) hrest

theorem normCat_chars (s : String) :
    ∀ c ∈ (normalizeCategoryS s).data, isCatSep c = false ∧ Char.toLower c = c := by
  intro c hc
  simp only [normalizeCategoryS] at hc
  have h1 : c ∈ slashCollapse (catSub1 (trimL (lowerL s.data))) :=
    (stripEnds_infixL _ _).subset hc
  have h2 : c ∈ catSub1 (trimL (lowerL s.data)) := (slashCollapse_sublist _).subset h1
  rcases mem_catSub1 _ c h2 with rfl | ⟨hm, hs⟩
  · exact ⟨by decide, by decide⟩
  · refine ⟨hs, ?_⟩
    have h3 : c ∈ lowerL s.data := (stripEnds_infixL isWsCh _).subset hm
    obtain ⟨d, _, rfl⟩ := List.mem_map.mp h3
    exact toLower_toLower d

theorem normCat_chain (s : String) :
    List.Chain' (fun a b => ¬(a = '/' ∧ b = '/')) (normalizeCategoryS s).data :=
  List.Chain'.infix (slashCollapse_chain (catSub1 (trimL (lowerL s.data))))
    (stripEnds_infixL _ _)

theorem normalizeCategoryS_idem (s : String) :
    normalizeCategoryS (normalizeCategoryS s) = normalizeCategoryS s := by
  have hchars := normCat_chars s
  have step1 : lowerL (normalizeCategoryS s).data = (normalizeCategoryS s).data := by
    unfold lowerL
    calc ((normalizeCategoryS s).data).map Char.toLower
        = ((normalizeCategoryS s).data).map id :=
          List.map_congr_left (fun c hc => (hchars c hc).2)
      _ = (normalizeCategoryS s).data := List.map_id _
  have step2 : trimL (normalizeCategoryS s).data = (normalizeCategoryS s).data := by
    apply stripEnds_all_not
    intro c hc
    have h := (hchars c hc).1
    simp only [isCatSep, Bool.or_eq_false_iff] at h
    exact h.2
  have step3 : catSub1 (normalizeCategoryS s).data = (normalizeCategoryS s).data :=
    catSub1_eq_self _ (fun c hc => (hchars c hc).1)
  have step4 : slashCollapse (normalizeCategoryS s).data = (normalizeCategoryS s).data :=
    slashCollapse_eq_self _ (normCat_chain s)
  have step5 : stripEnds (fun c => c = '/') (normalizeCategoryS s).data =
      (normalizeCategoryS s).data :=
    stripEnds_idem (fun c => decide (c = '/'))
      (slashCollapse (catSub1 (trimL (lowerL s.data))))
  conv_lhs => rw [normalizeCategoryS]
  rw [step1, step2, step3, step4, step5]

theorem normalizeCategoryV_idem (v : Value) (c : String)
    (h : normalizeCategoryV v = some c) : normalizeCategoryV (.vstr c) = some c := by
  unfold normalizeCategoryV at h
  by_cases hv : pyTruthy v = true
  · rw [hv] at h
    simp only [Bool.not_true, Bool.false_eq_true, if_false] at h
    cases v with
    | vstr s =>
      rw [Option.some_inj] at h
      subst h
      unfold normalizeCategoryV
      cases hc : pyTruthy (.vstr (normalizeCategoryS s)) with
      | false =>
        have he : normalizeCategoryS s = "" := by
          simp only [pyTruthy, Bool.not_eq_false'] at hc
          exact (String.isEmpty_iff _).mp hc
        simp [hc, he]
      | true => simp [hc, normalizeCategoryS_idem]
    | vint n => cases h
    | vfloat q => cases h
    | vnan => cases h
    | vnone => cases h
    | vstrlist l => cases h
  · rw [Bool.not_eq_true] at hv
    rw [hv] at h
    simp only [Bool.not_false, if_true, Option.some_inj] at h
    subst h
    decide

theorem pyTruthy_vstr_false (s : String) (h : pyTruthy (.vstr s) = false) : s = "" := by
  simp only [pyTruthy, Bool.not_eq_false'] at h
  exact (String.isEmpty_iff _).mp h

theorem normalizeBrandS_idem (s : String) :
    normalizeBrandS (normalizeBrandS s) = normalizeBrandS s := by
  by_cases h1 : trimS (lowerS s) ∈ hmVariants
  · have hs : normalizeBrandS s = "H&M" := by
      simp only [normalizeBrandS]
      rw [if_pos h1]
    rw [hs]
    decide
  · by_cases h2 : trimS (lowerS s) ∈ ouraVariants
    · have hs : normalizeBrandS s = "OURA" := by
        simp only [normalizeBrandS]
        rw [if_neg h1, if_pos h2]
      rw [hs]
      decide
    · by_cases h3 : trimS (lowerS s) ∈ whoopVariants
      · have hs : normalizeBrandS s = "WHOOP" := by
          simp only [normalizeBrandS]
          rw [if_neg h1, if_neg h2, if_pos h3]
        rw [hs]
        decide
      · have hs : normalizeBrandS s = pyTitle (trimS s) := by
          simp only [normalizeBrandS]
          rw [if_neg h1, if_neg h2, if_neg h3]
        rw [hs]
        have hbl : trimS (lowerS (pyTitle (trimS s))) = trimS (lowerS s) := by
          show (⟨trimL (lowerL (titleL (trimL s.data) false))⟩ : String) =
            ⟨trimL (lowerL s.data)⟩
          rw [lowerL_titleL, trimL_lowerL_comm, trimL_idem, ← trimL_lowerL_comm]
        have htr : trimS (pyTitle (trimS s)) = pyTitle (trimS s) := by
          show (⟨trimL (titleL (trimL s.data) false)⟩ : String) =
            ⟨titleL (trimL s.data) false⟩
          rw [trimL_titleL_fix (trimL s.data) (trimL_idem s.data) false]
        simp only [normalizeBrandS]
        rw [hbl, if_neg h1, if_neg h2, if_neg h3, htr]
        show (⟨titleL (titleL (trimL s.data) false) false⟩ : String) =
          ⟨titleL (trimL s.data) false⟩
        rw [titleL_titleL]

theorem normalizeBrandV_idem (v : Value) (b : String)
    (h : normalizeBrandV v = some b) : normalizeBrandV (.vstr b) = some b := by
  unfold normalizeBrandV at h
  by_cases hv : pyTruthy v = true
  · rw [hv] at h
    simp only [Bool.not_true, Bool.false_eq_true, if_false] at h
    cases v with
    | vstr s =>
      rw [Option.some_inj] at h
      subst h
      unfold normalizeBrandV
      cases hc : pyTruthy (.vstr (normalizeBrandS s)) with
      | false =>
        have he := pyTruthy_vstr_false _ hc
        simp [hc, he]
      | true => simp [hc, normalizeBrandS_idem]
    | vint n => cases h
    | vfloat q => cases h
    | vnan => cases h
    | vnone => cases h
    | vstrlist l => cases h
  · rw [Bool.not_eq_true] at hv
    rw [hv] at h
    simp only [Bool.not_false, if_true, Option.some_inj] at h
    subst h
    decide

theorem normalizePriceV_nonneg (v : Value) (q : ℚ)
    (h : normalizePriceV v = some q) : 0 ≤ q := by
  unfold normalizePriceV at h
  split at h
  · cases h
  · rw [Option.some_inj] at h
    subst h
    simp [defaultPrice]
  · split at h
    · rw [Option.some_inj] at h
      subst h
      simp [defaultPrice]
    · split at h
      · rw [Option.some_inj] at h
        subst h
        exact le_max_right _ _
      · rw [Option.some_inj] at h
        subst h
        exact le_max_right _ _
      · rw [Option.some_inj] at h
        subst h
        exact parsePriceStr_nonneg _

theorem normalizePriceV_idem (v : Value) (q : ℚ)
    (h : normalizePriceV v = some q) : normalizePriceV (.vfloat q) = some q := by
  have hq := normalizePriceV_nonneg v q h
  have hv : normalizePriceV (.vfloat q) = some (max q 0) := by
    simp [normalizePriceV, pdIsNa]
  rw [hv, max_eq_left hq]

theorem normalizeAvailabilityS_cases (s : String) :
    normalizeAvailabilityS s = "in_stock" ∨ normalizeAvailabilityS s = "out_of_stock" := by
  simp only [normalizeAvailabilityS]
  split
  · exact Or.inl rfl
  · split
    · exact Or.inr rfl
    · exact Or.inr rfl

theorem normalizeAvailabilityV_idem (v : Value) (a : String)
    (h : normalizeAvailabilityV v = some a) :
    normalizeAvailabilityV (.vstr a) = some a := by
  have ha : a = "in_stock" ∨ a = "out_of_stock" := by
    unfold normalizeAvailabilityV at h
    by_cases hv : pyTruthy v = true
    · rw [hv] at h
      simp only [Bool.not_true, Bool.false_eq_true, if_false] at h
      cases v with
      | vstr s =>
        rw [Option.some_inj] at h
        subst h
        exact normalizeAvailabilityS_cases s
      | vint n => cases h
      | vfloat q => cases h
      | vnan => cases h
      | vnone => cases h
      | vstrlist l => cases h
    · rw [Bool.not_eq_true] at hv
      rw [hv] at h
      simp only [Bool.not_false, if_true, Option.some_inj] at h
      exact Or.inr h.symm
  rcases ha with rfl | rfl
  · decide
  · decide

theorem head?_take_some (l : List Char) (k : Nat) (c : Char)
    (h : (l.take k).head? = some c) : l.head? = some c := by
  cases l with
  | nil => simp at h
  | cons a t =>
    cases k with
    | zero => simp at h
    | succ m => exact h

theorem vstr_truthy_of_ne (l : List Char) (h : l ≠ []) :
    pyTruthy (.vstr ⟨l⟩) = true := by
  simp only [pyTruthy, Bool.not_eq_true']
  rw [isEmpty_false_iff]
  intro e
  exact h (congrArg String.data e)

theorem collapse_head_not_ws (x : List Char) (c : Char)
    (hc : (collapseWsL (trimL x)).head? = some c) : isWsCh c = false := by
  cases hx : trimL x with
  | nil =>
    rw [hx] at hc
    simp [collapseWsL] at hc
  | cons a t =>
    have ha : isWsCh a = false :=
      trimmed_head_not_ws (trimL x) (trimL_idem x) a (by rw [hx]; rfl)
    have hh := collapseWsL_head (trimL x) a (by rw [hx]; rfl) ha
    rw [hh, Option.some_inj] at hc
    subst hc
    exact ha

theorem normTextCore_trim (x : List Char) :
    trimL (collapseWsL (trimL x)) = collapseWsL (trimL x) := by
  apply stripEnds_eq_self
  · exact collapse_head_not_ws x
  · intro c hc
    cases hx : trimL x with
    | nil =>
      rw [hx] at hc
      simp [collapseWsL] at hc
    | cons a t =>
      have hne : trimL x ≠ [] := by rw [hx]; simp
      have hg : (trimL x).getLast? = some ((trimL x).getLast hne) :=
        List.getLast?_eq_getLast _ hne
      have ha : isWsCh ((trimL x).getLast hne) = false :=
        trimmed_getLast_not_ws (trimL x) (trimL_idem x) _ hg
      have hh := collapseWsL_getLast (trimL x) _ hg ha
      rw [hh, Option.some_inj] at hc
      subst hc
      exact ha

theorem normTextCore_collapse (x : List Char) :
    collapseWsL (collapseWsL (trimL x)) = collapseWsL (trimL x) :=
  collapseWsL_eq_self _ (collapseWsL_chain _) (collapseWsL_all_space _)

theorem truncated_trim (n : List Char) (k : Nat)
    (hhd : ∀ c, n.head? = some c → isWsCh c = false) :
    trimL (n.take k ++ "...".data) = n.take k ++ "...".data := by
  apply stripEnds_eq_self
  · intro c hc
    cases htk : n.take k with
    | nil =>
      rw [htk, List.nil_append] at hc
      rw [show (("...".data : List Char)).head? = some '.' from rfl,
        Option.some_inj] at hc
      subst hc
      decide
    | cons a t =>
      rw [htk, List.cons_append, List.head?_cons, Option.some_inj] at hc
      subst hc
      exact hhd a (head?_take_some n k a (by rw [htk]; rfl))
  · intro c hc
    rw [List.getLast?_append_of_ne_nil _ ((by decide : ("...".data : List Char) ≠ []))] at hc
    rw [show (("...".data : List Char)).getLast? = some '.' from rfl,
      Option.some_inj] at hc
    subst hc
    decide

theorem truncated_collapse (n : List Char) (k : Nat)
    (hch : List.Chain' (fun a b => ¬(isWsCh a = true ∧ isWsCh b = true)) n)
    (hsp : ∀ c ∈ n, isWsCh c = true → c = ' ') :
    collapseWsL (n.take k ++ "...".data) = n.take k ++ "...".data := by
  have hdotsChain :
      List.Chain' (fun a b => ¬(isWsCh a = true ∧ isWsCh b = true)) ("...".data) := by
    rw [show ("...".data : List Char) = ['.', '.', '.'] from rfl]
    refine List.chain'_cons.mpr ⟨?_, List.chain'_cons.mpr ⟨?_, ?_⟩⟩
    · intro hand
      exact absurd hand.1 (by decide)
    · intro hand
      exact absurd hand.1 (by decide)
    · simp
  apply collapseWsL_eq_self
  · apply List.Chain'.append (hch.take k) hdotsChain
    intro x hx y hy
    rw [show (("...".data : List Char)).head? = some '.' from rfl, Option.mem_def,
      Option.some_inj] at hy
    subst hy
    intro hand
    exact absurd hand.2 (by decide)
  · intro c hc hw
    rcases List.mem_append.mp hc with hc | hc
    · exact hsp c (List.mem_of_mem_take hc) hw
    · rw [show ("...".data : List Char) = ['.', '.', '.'] from rfl] at hc
      simp only [List.mem_cons, List.not_mem_nil, or_false] at hc
      rcases hc with rfl | rfl | rfl <;> exact absurd hw (by decide)

theorem normalizeTextV_truthy (v : Value) (L : Nat) (hv : pyTruthy v = true) :
    normalizeTextV v L =
      ⟨if (collapseWsL (trimL (pyStr v).data)).length > L
        then (collapseWsL (trimL (pyStr v).data)).take (L - 3) ++ "...".data
        else collapseWsL (trimL (pyStr v).data)⟩ := by
  simp only [normalizeTextV, hv, Bool.not_true, Bool.false_eq_true, if_false]

theorem normalizeTextV_idem (v : Value) (L : Nat) (h3 : 3 ≤ L) :
    normalizeTextV (.vstr (normalizeTextV v L)) L = normalizeTextV v L := by
  by_cases hv : pyTruthy v = true
  case neg =>
    rw [Bool.not_eq_true] at hv
    have h1 : normalizeTextV v L = "" := by
      simp only [normalizeTextV, hv, Bool.not_false, if_true]
    rw [h1]
    rfl
  case pos =>
    have hinner := normalizeTextV_truthy v L hv
    by_cases hlen : (collapseWsL (trimL (pyStr v).data)).length > L
    case pos =>
      rw [if_pos hlen] at hinner
      rw [hinner]
      have hhd := collapse_head_not_ws (pyStr v).data
      have htr := truncated_trim (collapseWsL (trimL (pyStr v).data)) (L - 3) hhd
      have hco := truncated_collapse (collapseWsL (trimL (pyStr v).data)) (L - 3)
        (collapseWsL_chain _) (collapseWsL_all_space _)
      have hylen :
          ((collapseWsL (trimL (pyStr v).data)).take (L - 3) ++ "...".data).length = L := by
        rw [List.length_append, List.length_take]
        rw [show ("...".data : List Char).length = 3 from rfl]
        omega
      have hty : pyTruthy (.vstr
          ⟨(collapseWsL (trimL (pyStr v).data)).take (L - 3) ++ "...".data⟩) = true :=
        vstr_truthy_of_ne _ (by simp)
      rw [normalizeTextV_truthy _ _ hty]
      rw [show (pyStr (Value.vstr
          (⟨(collapseWsL (trimL (pyStr v).data)).take (L - 3) ++ "...".data⟩ : String))).data
        = (collapseWsL (trimL (pyStr v).data)).take (L - 3) ++ "...".data from rfl]
      rw [htr, hco, hylen]
      rw [if_neg (by omega)]
    case neg =>
      rw [if_neg hlen] at hinner
      rw [hinner]
      by_cases hne : collapseWsL (trimL (pyStr v).data) = []
      · rw [hne]
        rw [show (⟨[]⟩ : String) = "" from rfl]
        rfl
      · have hty : pyTruthy (.vstr ⟨collapseWsL (trimL (pyStr v).data)⟩) = true :=
          vstr_truthy_of_ne _ hne
        rw [normalizeTextV_truthy _ _ hty]
        rw [show (pyStr (Value.vstr
            (⟨collapseWsL (trimL (pyStr v).data)⟩ : String))).data
          = collapseWsL (trimL (pyStr v).data) from rfl]
        rw [normTextCore_trim, normTextCore_collapse]
        rw [if_neg hlen]

theorem getV_chain (d : Dict) (wid wb wc wpr wav wim wt wde : Value) (k : String) :
    getV (delV (setV (setV (setV (setV (setV (setV (setV (setV d "id" wid) "brand" wb)
        "category" wc) "price" wpr) "availability" wav) "image_link" wim) "title" wt)
        "description" wde) "image_urls") k =
      if k = "image_urls" then none
      else if k = "description" then some wde
      else if k = "title" then some wt
      else if k = "image_link" then some wim
      else if k = "availability" then some wav
      else if k = "price" then some wpr
      else if k = "category" then some wc
      else if k = "brand" then some wb
      else if k = "id" then some wid
      else getV d k := by
  by_cases h9 : k = "image_urls"
  · subst h9
    rw [getV_delV_same, if_pos rfl]
  · rw [getV_delV_other _ _ _ h9, if_neg h9]
    by_cases h8 : k = "description"
    · subst h8
      rw [getV_setV_same, if_pos rfl]
    · rw [getV_setV_other _ _ _ _ h8, if_neg h8]
      by_cases h7 : k = "title"
      · subst h7
        rw [getV_setV_same, if_pos rfl]
      · rw [getV_setV_other _ _ _ _ h7, if_neg h7]
        by_cases h6 : k = "image_link"
        · subst h6
          rw [getV_setV_same, if_pos rfl]
        · rw [getV_setV_other _ _ _ _ h6, if_neg h6]
          by_cases h5 : k = "availability"
          · subst h5
            rw [getV_setV_same, if_pos rfl]
          · rw [getV_setV_other _ _ _ _ h5, if_neg h5]
            by_cases h4 : k = "price"
            · subst h4
              rw [getV_setV_same, if_pos rfl]
            · rw [getV_setV_other _ _ _ _ h4, if_neg h4]
              by_cases h3 : k = "category"
              · subst h3
                rw [getV_setV_same, if_pos rfl]
              · rw [getV_setV_other _ _ _ _ h3, if_neg h3]
                by_cases h2 : k = "brand"
                · subst h2
                  rw [getV_setV_same, if_pos rfl]
                · rw [getV_setV_other _ _ _ _ h2, if_neg h2]
                  by_cases h1 : k = "id"
                  · subst h1
                    rw [getV_setV_same, if_pos rfl]
                  · rw [getV_setV_other _ _ _ _ h1, if_neg h1]

theorem normalizeDict_fields (p x : Dict) (h : normalizeDict p = some x) :
    ∃ b c pr av im,
      normalizeBrandV (getVD p "brand" (.vstr "")) = some b ∧
      normalizeCategoryV (getVD p "category" (.vstr "")) = some c ∧
      normalizePriceV (getVD p "price" .vnone) = some pr ∧
      normalizeAvailabilityV (getVD p "availability" (.vstr "")) = some av ∧
      normalizeImageLinkV (getVD p "image_urls" (.vstr "")) = some im ∧
      getV x "id" = some (.vstr (normalizeIdV p)) ∧
      getV x "brand" = some (.vstr b) ∧
      getV x "category" = some (.vstr c) ∧
      getV x "price" = some (.vfloat pr) ∧
      getV x "availability" = some (.vstr av) ∧
      getV x "image_link" = some (.vstr im) ∧
      getV x "title" =
        some (.vstr (normalizeTextV (getVD p "title" (.vstr "")) maxTitleLength)) ∧
      getV x "description" =
        some (.vstr (normalizeTextV (getVD p "description" (.vstr "")) maxDescriptionLength)) ∧
      getV x "image_urls" = none ∧
      (∀ k, k ∉ canonicalKeys → getV x k = getV p k) := by
  simp only [normalizeDict, bind, Option.bind_eq_some, Option.some_inj] at h
  obtain ⟨b, hb, c, hc, pr, hpr, av, hav, im, him, hx⟩ := h
  subst hx
  refine ⟨b, c, pr, av, im, hb, hc, hpr, hav, him,
    ?_, ?_, ?_, ?_, ?_, ?_, ?_, ?_, ?_, ?_⟩
  · rw [getV_chain]
    simp
  · rw [getV_chain]
    simp
  · rw [getV_chain]
    simp
  · rw [getV_chain]
    simp
  · rw [getV_chain]
    simp
  · rw [getV_chain]
    simp
  · rw [getV_chain]
    simp
  · rw [getV_chain]
    simp
  · rw [getV_chain]
    simp
  · intro k hk
    simp only [canonicalKeys, List.mem_cons, not_or] at hk
    obtain ⟨n1, n2, n3, n4, n5, n6, n7, n8, n9, -⟩ := hk
    rw [getV_chain, if_neg n9, if_neg n8, if_neg n7, if_neg n6, if_neg n5, if_neg n4,
      if_neg n3, if_neg n2, if_neg n1]

theorem normalizeIdV_out (p x : Dict) (h : normalizeDict p = some x) :
    normalizeIdV x = normalizeIdV p := by
  obtain ⟨b, c, pr, av, im, -, -, -, -, -, hid, -, -, -, -, -, -, -, -, hframe⟩ :=
    normalizeDict_fields p x h
  have hpid : getV x "product_id" = getV p "product_id" :=
    hframe "product_id" (by decide)
  unfold normalizeIdV
  simp only [getVD, hpid]
  cases hgp : getV p "product_id" with
  | some v => simp [hgp]
  | none =>
    simp only [Option.getD_none]
    rw [hid]
    simp only [Option.getD_some]
    have hp1 : normalizeIdV p = trimS (pyStr ((getV p "id").getD (.vstr ""))) := by
      unfold normalizeIdV
      simp only [getVD, hgp, Option.getD_none]
    rw [show trimS (pyStr (Value.vstr (normalizeIdV p))) = trimS (normalizeIdV p) from rfl,
      hp1]
    show (⟨trimL (trimL (pyStr ((getV p "id").getD (Value.vstr ""))).data)⟩ : String) =
      ⟨trimL (pyStr ((getV p "id").getD (Value.vstr ""))).data⟩
    rw [trimL_idem]

/-- C2: the spec claims a second normalization is the identity on every
field of an already-normalized record.  That holds for seven of the eight
canonical fields and for every passenger key, but not for `image_link`:
the first pass deletes the raw `image_urls` column, so a renormalization
reads a missing `image_urls` and always writes `image_link = ""`.  Amended
statement: renormalizing a normalized record never raises, sets
`image_link` to the empty string, and leaves every other key (canonical or
not) exactly as it was. -/
theorem normalize_idem (p x : Dict) (h : normalizeDict p = some x) :
    ∃ x', normalizeDict x = some x' ∧
      getV x' "image_link" = some (.vstr "") ∧
      ∀ k, k ≠ "image_link" → getV x' k = getV x k := by
  obtain ⟨b, c, pr, av, im, hb, hc, hpr, hav, him, hid, hxb, hxc, hxpr, hxav, hxim,
    hxt, hxd, hxu, hframe⟩ := normalizeDict_fields p x h
  have e1 : getVD x "brand" (.vstr "") = .vstr b := by
    rw [getVD, hxb]
    rfl
  have e2 : getVD x "category" (.vstr "") = .vstr c := by
    rw [getVD, hxc]
    rfl
  have e3 : getVD x "price" .vnone = .vfloat pr := by
    rw [getVD, hxpr]
    rfl
  have e4 : getVD x "availability" (.vstr "") = .vstr av := by
    rw [getVD, hxav]
    rfl
  have e5 : getVD x "image_urls" (.vstr "") = .vstr "" := by
    rw [getVD, hxu]
    rfl
  have e6 : getVD x "title" (.vstr "") =
      .vstr (normalizeTextV (getVD p "title" (.vstr "")) maxTitleLength) := by
    rw [getVD, hxt]
    rfl
  have e7 : getVD x "description" (.vstr "") =
      .vstr (normalizeTextV (getVD p "description" (.vstr "")) maxDescriptionLength) := by
    rw [getVD, hxd]
    rfl
  have f1 : normalizeBrandV (.vstr b) = some b := normalizeBrandV_idem _ _ hb
  have f2 : normalizeCategoryV (.vstr c) = some c := normalizeCategoryV_idem _ _ hc
  have f3 : normalizePriceV (.vfloat pr) = some pr := normalizePriceV_idem _ _ hpr
  have f4 : normalizeAvailabilityV (.vstr av) = some av :=
    normalizeAvailabilityV_idem _ _ hav
  have f5 : normalizeImageLinkV (.vstr "") = some "" := by decide
  have g6 : normalizeTextV (getVD x "title" (.vstr "")) maxTitleLength
      = normalizeTextV (getVD p "title" (.vstr "")) maxTitleLength := by
    rw [e6]
    exact normalizeTextV_idem _ _ (by decide)
  have g7 : normalizeTextV (getVD x "description" (.vstr "")) maxDescriptionLength
      = normalizeTextV (getVD p "description" (.vstr "")) maxDescriptionLength := by
    rw [e7]
    exact normalizeTextV_idem _ _ (by decide)
  refine ⟨delV (setV (setV (setV (setV (setV (setV (setV (setV x "id"
      (.vstr (normalizeIdV x))) "brand" (.vstr b)) "category" (.vstr c)) "price"
      (.vfloat pr)) "availability" (.vstr av)) "image_link" (.vstr "")) "title"
      (.vstr (normalizeTextV (getVD x "title" (.vstr "")) maxTitleLength))) "description"
      (.vstr (normalizeTextV (getVD x "description" (.vstr "")) maxDescriptionLength)))
      "image_urls", ?_, ?_, ?_⟩
  · simp only [normalizeDict, e1, e2, e3, e4, e5, f1, f2, f3, f4, f5, bind,
      Option.some_bind]
  · rw [getV_chain]
    simp
  · intro k hk
    rw [getV_chain]
    by_cases k9 : k = "image_urls"
    · subst k9
      rw [if_pos rfl, hxu]
    · rw [if_neg k9]
      by_cases k8 : k = "description"
      · subst k8
        rw [if_pos rfl, g7, hxd]
      · rw [if_neg k8]
        by_cases k7 : k = "title"
        · subst k7
          rw [if_pos rfl, g6, hxt]
        · rw [if_neg k7]
          rw [if_neg hk]
          by_cases k5 : k = "availability"
          · subst k5
            rw [if_pos rfl, hxav]
          · rw [if_neg k5]
            by_cases k4 : k = "price"
            · subst k4
              rw [if_pos rfl, hxpr]
            · rw [if_neg k4]
              by_cases k3 : k = "category"
              · subst k3
                rw [if_pos rfl, hxc]
              · rw [if_neg k3]
                by_cases k2 : k = "brand"
                · subst k2
                  rw [if_pos rfl, hxb]
                · rw [if_neg k2]
                  by_cases k1 : k = "id"
                  · subst k1
                    rw [if_pos rfl, normalizeIdV_out p x h, hid]
                  · rw [if_neg k1]

/-- The literal C2 claim is false: a product whose raw `image_urls` holds a
valid URL gets a nonempty `image_link` from the first normalization, and
the second normalization erases it. -/
theorem normalize_idem_counterexample :
    ∃ p x x', normalizeDict p = some x ∧ normalizeDict x = some x' ∧
      getV x' "image_link" ≠ getV x "image_link" :=
  ⟨[("id", Value.vstr "p1"), ("image_urls", Value.vstr "http://ex.co/ab")],
   [("id", Value.vstr "p1"), ("brand", Value.vstr ""), ("category", Value.vstr ""),
    ("price", Value.vfloat 0), ("availability", Value.vstr "out_of_stock"),
    ("image_link", Value.vstr "http://ex.co/ab"), ("title", Value.vstr ""),
    ("description", Value.vstr "")],
   [("id", Value.vstr "p1"), ("brand", Value.vstr ""), ("category", Value.vstr ""),
    ("price", Value.vfloat 0), ("availability", Value.vstr "out_of_stock"),
    ("image_link", Value.vstr ""), ("title", Value.vstr ""),
    ("description", Value.vstr "")],
   by decide, by decide, by decide⟩

theorem normalize_idem_witness :
    ∃ x', normalizeDict [("title", Value.vstr "Blue shirt"), ("id", Value.vstr ""),
        ("brand", Value.vstr ""), ("category", Value.vstr ""),
        ("price", Value.vfloat 0), ("availability", Value.vstr "out_of_stock"),
        ("image_link", Value.vstr ""), ("description", Value.vstr "")] = some x' ∧
      getV x' "image_link" = some (Value.vstr "") ∧
      ∀ k, k ≠ "image_link" →
        getV x' k = getV [("title", Value.vstr "Blue shirt"), ("id", Value.vstr ""),
          ("brand", Value.vstr ""), ("category", Value.vstr ""),
          ("price", Value.vfloat 0), ("availability", Value.vstr "out_of_stock"),
          ("image_link", Value.vstr ""), ("description", Value.vstr "")] k :=
  normalize_idem [("title", Value.vstr "  Blue   shirt ")] _ (by decide)

end Catalog
